import Mathlib

/-!
# gkbts: Slack stand-up messages to timesheet records

A shallow embedding of `main.go` (functions `parseSlackTs`, `getPrevWorkingDay`
and `extractTsRecords`) together with the library operations they call
(`time`, `strings`, `strconv`, `regexp`, `sort`), followed by theorems about
the embedded program.

Modelling conventions.

* A Go `string` is a Lean `String`; the functions work on its list of
  characters.
* A Go `time.Time` is the count `ext` of seconds since January 1 of year 1
  (an `int64`), the nanoseconds, and its `Location`. A `Location` is the list
  of its zone transitions. Calendar fields are computed with the algorithms of
  the Go `time` package on 64-bit integers: every operation that can overflow
  wraps explicitly (`wrap64`, `wrapU64`).
* Go `sort.Slice` is the pattern-defeating quicksort of the `sort` package,
  which sorts ranges of at most 12 elements by insertion. Its loops run on
  fuel that is never used up.
* A `[]*SlackMessage` is a list of optional messages, `none` being a nil
  pointer.
* A run-time panic of the Go program (nil pointer dereference, integer
  division by zero) is an error of `GoError`.
* The process-wide local zone of `time.Unix` is the parameter `loc` of
  `parseSlackTs`.
-/

namespace Gkbts

/-! ## The `time` package -/

/-- Wrap an integer to the range of a Go `int64`. -/
def wrap64 (x : Int) : Int := (x + 9223372036854775808) % 18446744073709551616 - 9223372036854775808

/-- Wrap an integer to the range of a Go `uint64`. -/
def wrapU64 (x : Int) : Int := x % 18446744073709551616

/-- A `time.Location`: the offset (seconds east of UTC) in use before the
first transition, and the transitions in the order of time, each with the
instant (Unix seconds) from which it holds and its offset. -/
structure Location where
  offset : Int
  tx : List (Int × Int)
  deriving DecidableEq, Repr

/-- Go `time.UTC`. -/
def UTC : Location := ⟨0, []⟩

/-- Go `time.FixedZone`: a location that always uses the given offset. -/
def FixedZone (offset : Int) : Location := ⟨offset, []⟩

/-- Search of Go `Location.lookup` through the transitions: the offset in use
at `sec` and the bounds `start` and `end` of the period in which it holds. -/
def lookupFrom (offset start : Int) : List (Int × Int) → Int → Int × Int × Int
  | [], _ => (offset, start, 9223372036854775807)
  | (w, o) :: tx, sec =>
    if sec < w then (offset, start, w) else lookupFrom o w tx sec

/-- Go `Location.lookup`: offset, start and end of the period around the
instant `sec`. -/
def Location.lookup (l : Location) (sec : Int) : Int × Int × Int :=
  lookupFrom l.offset (-9223372036854775808) l.tx sec

/-- The offset of the location at the instant `sec`. -/
def Location.offsetAt (l : Location) (sec : Int) : Int := (l.lookup sec).1

/-- A `time.Time` without monotonic clock reading: `ext` seconds since January
1, year 1, 00:00:00 UTC (an `int64`), `nsec` nanoseconds, and the location. -/
structure Time where
  ext : Int
  nsec : Fin 1000000000
  loc : Location
  deriving DecidableEq, Repr

/-- The nanosecond field of a `time.Time` from an integer that lies in
`[0, 1e9)` (reduced modulo 1e9 so that the field is in range by construction). -/
def nsecOfInt (x : Int) : Fin 1000000000 :=
  ⟨(x % 1000000000).toNat, by omega⟩

/-- The zero `time.Time`: January 1, year 1, 00:00:00 UTC. -/
def Time.zero : Time := ⟨0, 0, UTC⟩

/-- Go `Time.Before`: the instant `t` is strictly before the instant `u`. -/
def Time.Before (t u : Time) : Bool :=
  decide (t.ext < u.ext) || (decide (t.ext = u.ext) && decide (t.nsec.val < u.nsec.val))

/-- Go `Time.unixSec`, the result of `Time.Unix`: seconds since the Unix epoch. -/
def Time.unixSec (t : Time) : Int := wrap64 (t.ext - 62135596800)

/-- Go `Time.abs`: seconds of local time since January 1 of the absolute zero
year -292277022399, as a `uint64`. -/
def Time.abs (t : Time) : Int :=
  wrapU64 (t.unixSec + t.loc.offsetAt t.unixSec + 9223372028715321600)

/-- Number of the local calendar day of `t`, counted from January 1 of the
absolute zero year. -/
def Time.absDay (t : Time) : Int := t.abs / 86400

/-- Go `absDate`, first half: the year and the zero-based day of the year of
the day that is `d` days after January 1 of the absolute zero year. -/
def yearAndYday (d : Int) : Int × Int :=
  -- Account for 400 year cycles.
  let n400 := d / 146097
  let d1 := d - 146097 * n400
  -- Cut off 100-year cycles.
  let n100 := d1 / 36524
  let n100 := n100 - n100 / 4
  let d2 := d1 - 36524 * n100
  -- Cut off 4-year cycles.
  let n4 := d2 / 1461
  let d3 := d2 - 1461 * n4
  -- Cut off years within a 4-year cycle.
  let n1 := d3 / 365
  let n1 := n1 - n1 / 4
  let d4 := d3 - 365 * n1
  (400 * n400 + 100 * n100 + 4 * n4 + n1 + -292277022399, d4)

/-- Go `isLeap`. -/
def isLeap (year : Int) : Bool :=
  decide (year % 4 = 0) && (decide (year % 100 ≠ 0) || decide (year % 400 = 0))

/-- Go `daysBefore`: `daysBefore m` counts the days in a non-leap year before
month `m + 1` starts. -/
def daysBefore (m : Int) : Int :=
  [0, 31, 59, 90, 120, 151, 181, 212, 243, 273, 304, 334, 365].getD m.toNat 0

/-- Go `absDate`, second half: month (1..12) and day of the month from the
year and the zero-based day of the year. -/
def monthAndDay (year yday : Int) : Int × Int :=
  if isLeap year && decide (yday = 31 + 29 - 1) then
    -- Leap day.
    (2, 29)
  else
    -- After leap day; pretend it wasn't there.
    let day := if isLeap year && decide (yday > 31 + 29 - 1) then yday - 1 else yday
    -- Estimate month on assumption that every month has 31 days.
    let month := day / 31
    let endd := daysBefore (month + 1)
    if day ≥ endd then (month + 2, day - endd + 1)
    else (month + 1, day - daysBefore month + 1)

/-- Go `Time.Year`. -/
def Time.Year (t : Time) : Int := (yearAndYday t.absDay).1

/-- Go `Time.YearDay`: the day of the year, 1..366. -/
def Time.YearDay (t : Time) : Int := (yearAndYday t.absDay).2 + 1

/-- Go `Time.Date`: year, month and day of the month. -/
def Time.Date (t : Time) : Int × Int × Int :=
  let yd := yearAndYday t.absDay
  let md := monthAndDay yd.1 yd.2
  (yd.1, md.1, md.2)

/-- Go `Time.Clock`: hour, minute and second within the day. -/
def Time.Clock (t : Time) : Int × Int × Int :=
  let s := t.abs % 86400
  (s / 3600, s % 3600 / 60, s % 60)

/-- Go `Time.Weekday`, Sunday = 0, ..., Saturday = 6 (January 1 of the
absolute zero year is a Monday). -/
def Time.Weekday (t : Time) : Int := wrapU64 (t.abs + 86400) % 604800 / 86400

/-- Go `time.Sunday`. -/
def Sunday : Int := 0
/-- Go `time.Monday`. -/
def Monday : Int := 1
/-- Go `time.Tuesday`. -/
def Tuesday : Int := 2
/-- Go `time.Wednesday`. -/
def Wednesday : Int := 3
/-- Go `time.Thursday`. -/
def Thursday : Int := 4
/-- Go `time.Friday`. -/
def Friday : Int := 5
/-- Go `time.Saturday`. -/
def Saturday : Int := 6

/-- Go `norm`: bring `lo` into `[0, base)`, carrying into `hi`. -/
def norm (hi lo base : Int) : Int × Int :=
  let r1 : Int × Int :=
    if lo < 0 then
      let n := Int.tdiv (-lo - 1) base + 1
      (hi - n, lo + n * base)
    else (hi, lo)
  if r1.2 ≥ base then
    let n := Int.tdiv r1.2 base
    (r1.1 + n, r1.2 - n * base)
  else r1

/-- Go `daysSinceEpoch`: days from January 1 of the absolute zero year to
January 1 of `year`, as a `uint64`. -/
def daysSinceEpoch (year : Int) : Int :=
  let y := wrapU64 (year - -292277022399)
  -- Add in days from 400-year cycles.
  let n := y / 400
  let y := y - 400 * n
  let d := 146097 * n
  -- Add in 100-year cycles.
  let n := y / 100
  let y := y - 100 * n
  let d := d + 36524 * n
  -- Add in 4-year cycles.
  let n := y / 4
  let y := y - 4 * n
  let d := d + 1461 * n
  -- Add in non-leap years.
  wrapU64 (d + 365 * y)

/-- The step of Go `time.Date` that looks for the zone offset of the expected
local time `unix` (given as if it were UTC) and adjusts it to UTC. -/
def adjustToUTC (loc : Location) (unix : Int) : Int :=
  let zone := loc.lookup unix
  if zone.1 ≠ 0 then
    let utc := wrap64 (unix - zone.1)
    -- If utc is valid for the time zone we found, then we have the right offset.
    -- If not, we get the correct offset by looking up utc in the location.
    let offset := if utc < zone.2.1 ∨ utc ≥ zone.2.2 then loc.offsetAt utc else zone.1
    wrap64 (unix - offset)
  else unix

/-- The local time `wall` (seconds, read as if UTC) exists in the location:
the instant that `time.Date` finds for it has this local time. A local time
that a zone transition skipped does not exist. -/
def Location.hasLocalTime (l : Location) (wall : Int) : Prop :=
  adjustToUTC l wall + l.offsetAt (adjustToUTC l wall) = wall

instance (l : Location) (wall : Int) : Decidable (l.hasLocalTime wall) :=
  inferInstanceAs (Decidable (adjustToUTC l wall + l.offsetAt (adjustToUTC l wall) = wall))

/-- Go `time.Date`. -/
def mkDate (year month day hour min sec nsec : Int) (loc : Location) : Time :=
  -- Normalize month, overflowing into year.
  let ym := norm year (month - 1) 12
  let year := ym.1
  let month := ym.2 + 1
  -- Normalize nsec, sec, min, hour, overflowing into day.
  let sn := norm sec nsec 1000000000
  let ms := norm min sn.1 60
  let hm := norm hour ms.1 60
  let dh := norm day hm.1 24
  let day := dh.1
  -- Compute days since the absolute epoch.
  let d := daysSinceEpoch year
  -- Add in days before this month.
  let d := d + daysBefore (month - 1)
  let d := if isLeap year && decide (month ≥ 3) then d + 1 else d
  -- Add in days before today.
  let d := wrapU64 (d + (day - 1))
  -- Add in time elapsed today.
  let abs := wrapU64 (d * 86400 + (dh.2 * 3600 + hm.2 * 60 + ms.2))
  let unix := wrap64 (abs + -9223372028715321600)
  ⟨wrap64 (adjustToUTC loc unix + 62135596800), nsecOfInt sn.2, loc⟩

/-- Go `Time.AddDate`. -/
def Time.AddDate (t : Time) (years months days : Int) : Time :=
  let ymd := t.Date
  let hms := t.Clock
  mkDate (ymd.1 + years) (ymd.2.1 + months) (ymd.2.2 + days) hms.1 hms.2.1 hms.2.2 t.nsec.val t.loc

/-- Go `time.Unix` in a process whose local zone is `loc`. -/
def Unix (loc : Location) (sec nsec : Int) : Time :=
  if nsec < 0 ∨ nsec ≥ 1000000000 then
    let n := Int.tdiv nsec 1000000000
    let sec := wrap64 (sec + n)
    let nsec := nsec - n * 1000000000
    if nsec < 0 then ⟨wrap64 (wrap64 (sec - 1) + 62135596800), nsecOfInt (nsec + 1000000000), loc⟩
    else ⟨wrap64 (sec + 62135596800), nsecOfInt nsec, loc⟩
  else ⟨wrap64 (sec + 62135596800), nsecOfInt nsec, loc⟩

/-! ## Errors -/

/-- The errors of the embedded program: the `strconv` errors, the error value
built in `parseSlackTs`, and the run-time panics of a nil pointer dereference
and of an integer division by zero. -/
inductive GoError where
  | errSyntax
  | errRange
  | unableToParseTimestamp
  | panicNilPointerDereference
  | panicDivideByZero
  deriving DecidableEq, Repr

/-! ## The `strings` and `strconv` packages -/

/-- Go `strings.Split(s, sep)` for a separator of one character. -/
def stringsSplit (sep : Char) : List Char → List (List Char)
  | [] => [[]]
  | c :: cs =>
    if c = sep then [] :: stringsSplit sep cs
    else
      match stringsSplit sep cs with
      | [] => [[c]]
      | h :: t => (c :: h) :: t

/-- Go `strings.TrimLeft(s, cutset)`: drop the leading characters that occur
in `cutset`. -/
def stringsTrimLeft (cutset : List Char) (s : List Char) : List Char :=
  s.dropWhile (fun c => cutset.contains c)

/-- Loop of Go `strconv.ParseUint(s, 10, 64)` over the characters, `n` being
the value read so far. A letter is a digit of value at least 10, so in base 10
it is a syntax error like any other non-digit. -/
def parseUintLoop : List Char → Nat → Except GoError Nat
  | [], n => .ok n
  | c :: cs, n =>
    if '0' ≤ c ∧ c ≤ '9' then
      let d := c.toNat - '0'.toNat
      if n ≥ 1844674407370955162 then .error .errRange
      else
        let n := n * 10
        let n1 := (n + d) % 18446744073709551616
        if n1 < n ∨ n1 > 18446744073709551615 then .error .errRange
        else parseUintLoop cs n1
    else .error .errSyntax

/-- Go `strconv.ParseUint(s, 10, 64)`. -/
def ParseUint (s : List Char) : Except GoError Nat :=
  if s = [] then .error .errSyntax else parseUintLoop s 0

/-- Go `strconv.ParseInt(s, 10, 64)`. -/
def ParseInt (s : List Char) : Except GoError Int :=
  match s with
  | [] => .error .errSyntax
  | c :: cs =>
    let neg := decide (c = '-')
    let s1 := if c = '+' ∨ c = '-' then cs else c :: cs
    match ParseUint s1 with
    | .error e => .error e
    | .ok un =>
      if !neg && decide (un ≥ 9223372036854775808) then .error .errRange
      else if neg && decide (un > 9223372036854775808) then .error .errRange
      else
        let n := wrap64 (un : Int)
        .ok (if neg then wrap64 (-n) else n)

/-! ## The `regexp` package, for the pattern of `extractTsRecords`

A backtracking matcher in continuation-passing style: each piece of the
pattern receives the rest of the input and the continuation that matches the
rest of the pattern. Go's `regexp` returns the leftmost match and, among
those, the one a backtracking search finds first. -/

/-- Match the literal `lit`. -/
def reLit {α : Type} : List Char → List Char → (List Char → Option α) → Option α
  | [], s, k => k s
  | _ :: _, [], _ => none
  | c :: cs, x :: s, k => if x = c then reLit cs s k else none

/-- Match `p*?`: as few characters of class `p` as possible. -/
def reLazyStar {α : Type} (p : Char → Bool) : List Char → (List Char → Option α) → Option α
  | [], k => k []
  | x :: s, k =>
    match k (x :: s) with
    | some r => some r
    | none => if p x then reLazyStar p s k else none

/-- Match `p*`: as many characters of class `p` as possible. -/
def reGreedyStar {α : Type} (p : Char → Bool) : List Char → (List Char → Option α) → Option α
  | [], k => k []
  | x :: s, k =>
    if p x then
      match reGreedyStar p s k with
      | some r => some r
      | none => k (x :: s)
    else k (x :: s)

/-- Match `p+`: one character of class `p`, then `p*`. -/
def reGreedyPlus {α : Type} (p : Char → Bool) : List Char → (List Char → Option α) → Option α
  | [], _ => none
  | x :: s, k => if p x then reGreedyStar p s k else none

/-- Match `(p*?)` after the characters `cap` of the group were read: the
continuation receives the text of the group. -/
def reLazyStarCap {α : Type} (p : Char → Bool) :
    List Char → List Char → (List Char → List Char → Option α) → Option α
  | cap, [], k => k cap []
  | cap, x :: s, k =>
    match k cap (x :: s) with
    | some r => some r
    | none => if p x then reLazyStarCap p (cap ++ [x]) s k else none

/-- Match `(p+?)`, a capturing group. -/
def reLazyPlusCap {α : Type} (p : Char → Bool) :
    List Char → (List Char → List Char → Option α) → Option α
  | [], _ => none
  | x :: s, k => if p x then reLazyStarCap p [x] s k else none

/-- The class `.`: any character but a newline. -/
def reAny (c : Char) : Bool := !(c == '\n')

/-- The class `[a-zA-Z]`. -/
def reAlpha (c : Char) : Bool :=
  (decide ('a' ≤ c) && decide (c ≤ 'z')) || (decide ('A' ≤ c) && decide (c ≤ 'Z'))

/-- The class `\d`. -/
def reDigit (c : Char) : Bool := decide ('0' ≤ c) && decide (c ≤ '9')

/-- Match `<https://.*?atlassian\.net/browse/[a-zA-Z]+-\d+\|(.+?)>` at the
start of `s`: the text of group 1 and the input left after the match. -/
def jiraRegexMatch (s : List Char) : Option (List Char × List Char) :=
  reLit "<https://".data s fun s =>
  reLazyStar reAny s fun s =>
  reLit "atlassian.net/browse/".data s fun s =>
  reGreedyPlus reAlpha s fun s =>
  reLit "-".data s fun s =>
  reGreedyPlus reDigit s fun s =>
  reLit "|".data s fun s =>
  reLazyPlusCap reAny s fun cap s =>
  reLit ">".data s fun s =>
  some (cap, s)

/-- Go `jiraRegex.ReplaceAllString(src, "$1")`: scanning from the left, every
match is replaced by its group 1 and the search resumes after the match
(`skip` counts the characters of the current match still to pass over). -/
def jiraReplaceAll : Nat → List Char → List Char
  | _, [] => []
  | skip + 1, _ :: s => jiraReplaceAll skip s
  | 0, c :: s =>
    match jiraRegexMatch (c :: s) with
    | some (cap, rest) => cap ++ jiraReplaceAll (s.length - rest.length) s
    | none => c :: jiraReplaceAll 0 s


/-! ## The `sort` package -/

/-- Go `data.Less(i, j)` on the slice `data`. -/
def lessAt {α : Type} (less : α → α → Bool) (data : List α) (i j : Nat) : Bool :=
  match data[i]?, data[j]? with
  | some x, some y => less x y
  | _, _ => false

/-- Go `data.Swap(i, j)` on the slice `data`. -/
def swapAt {α : Type} (data : List α) (i j : Nat) : List α :=
  match data[i]?, data[j]? with
  | some x, some y => (data.set i y).set j x
  | _, _ => data

/-- Inner loop of Go `insertionSortLessFunc`: the new element `x` is swapped
leftwards as long as it is less than its left neighbour. The sorted prefix is
held in reverse (its last element first). -/
def insertLeftwards {α : Type} (less : α → α → Bool) (x : α) : List α → List α
  | [] => [x]
  | y :: ys => if less x y then y :: insertLeftwards less x ys else x :: y :: ys

/-- Go `insertionSortLessFunc` on a whole segment. -/
def insertionSortList {α : Type} (less : α → α → Bool) (seg : List α) : List α :=
  (seg.foldl (fun sortedRev x => insertLeftwards less x sortedRev) []).reverse

/-- Go `insertionSortLessFunc(data, a, b)`: insertion sort of `data[a:b]`. -/
def insertionSortLessFunc {α : Type} (less : α → α → Bool) (data : List α) (a b : Nat) : List α :=
  data.take a ++ insertionSortList less ((data.drop a).take (b - a)) ++ data.drop b

/-- Go `siftDownLessFunc(data, lo, hi, first)`, with `root` starting at `lo`. -/
def siftDownLessFunc {α : Type} (less : α → α → Bool) :
    Nat → List α → Nat → Nat → Nat → List α
  | 0, data, _, _, _ => data
  | fuel + 1, data, root, hi, first =>
    let child := 2 * root + 1
    if child ≥ hi then data
    else
      let child :=
        if child + 1 < hi && lessAt less data (first + child) (first + child + 1) then child + 1
        else child
      if !lessAt less data (first + root) (first + child) then data
      else siftDownLessFunc less fuel (swapAt data (first + root) (first + child)) child hi first

/-- Go `heapSortLessFunc(data, a, b)`. -/
def heapSortLessFunc {α : Type} (less : α → α → Bool) (data : List α) (a b : Nat) : List α :=
  let first := a
  let lo := 0
  let hi := b - a
  -- Build heap with greatest element at top.
  let data := (List.range ((hi - 1) / 2 + 1)).reverse.foldl
    (fun data i => siftDownLessFunc less hi data i hi first) data
  -- Pop elements, largest first, into end of data.
  (List.range hi).reverse.foldl
    (fun data i => siftDownLessFunc less hi (swapAt data first (first + i)) lo i first) data

/-- The loop `for i <= j && data.Less(i, a) { i++ }`; the result is `i`. -/
def scanLess {α : Type} (less : α → α → Bool) (data : List α) (a : Nat) : Nat → Nat → Nat → Nat
  | 0, i, _ => i
  | fuel + 1, i, j =>
    if i ≤ j && lessAt less data i a then scanLess less data a fuel (i + 1) j else i

/-- The loop `for i <= j && !data.Less(j, a) { j-- }`; the result is `j`. -/
def scanNotLess {α : Type} (less : α → α → Bool) (data : List α) (a : Nat) : Nat → Nat → Nat → Nat
  | 0, _, j => j
  | fuel + 1, i, j =>
    if i ≤ j && !lessAt less data j a then scanNotLess less data a fuel i (j - 1) else j

/-- The final loop of Go `partitionLessFunc`. -/
def partitionLoop {α : Type} (less : α → α → Bool) (a : Nat) :
    Nat → List α → Nat → Nat → List α × Nat × Bool
  | 0, data, _, j => (swapAt data j a, j, false)
  | fuel + 1, data, i, j =>
    let i := scanLess less data a data.length i j
    let j := scanNotLess less data a data.length i j
    if i > j then (swapAt data j a, j, false)
    else partitionLoop less a fuel (swapAt data i j) (i + 1) (j - 1)

/-- Go `partitionLessFunc(data, a, b, pivot)`: one quicksort partition; the
results are the slice, the new index of the pivot and `alreadyPartitioned`. -/
def partitionLessFunc {α : Type} (less : α → α → Bool) (data : List α) (a b pivot : Nat) :
    List α × Nat × Bool :=
  let data := swapAt data a pivot
  -- i and j are inclusive of the elements remaining to be partitioned
  let i := scanLess less data a data.length (a + 1) (b - 1)
  let j := scanNotLess less data a data.length i (b - 1)
  if i > j then (swapAt data j a, j, true)
  else partitionLoop less a data.length (swapAt data i j) (i + 1) (j - 1)

/-- The loop `for i <= j && !data.Less(a, i) { i++ }`; the result is `i`. -/
def scanNotGreater {α : Type} (less : α → α → Bool) (data : List α) (a : Nat) :
    Nat → Nat → Nat → Nat
  | 0, i, _ => i
  | fuel + 1, i, j =>
    if i ≤ j && !lessAt less data a i then scanNotGreater less data a fuel (i + 1) j else i

/-- The loop `for i <= j && data.Less(a, j) { j-- }`; the result is `j`. -/
def scanGreater {α : Type} (less : α → α → Bool) (data : List α) (a : Nat) :
    Nat → Nat → Nat → Nat
  | 0, _, j => j
  | fuel + 1, i, j =>
    if i ≤ j && lessAt less data a j then scanGreater less data a fuel i (j - 1) else j

/-- The loop of Go `partitionEqualLessFunc`. -/
def partitionEqualLoop {α : Type} (less : α → α → Bool) (a : Nat) :
    Nat → List α → Nat → Nat → List α × Nat
  | 0, data, i, _ => (data, i)
  | fuel + 1, data, i, j =>
    let i := scanNotGreater less data a data.length i j
    let j := scanGreater less data a data.length i j
    if i > j then (data, i)
    else partitionEqualLoop less a fuel (swapAt data i j) (i + 1) (j - 1)

/-- Go `partitionEqualLessFunc(data, a, b, pivot)`: partition `data[a:b]`
into the elements equal to the pivot followed by the greater ones. -/
def partitionEqualLessFunc {α : Type} (less : α → α → Bool) (data : List α) (a b pivot : Nat) :
    List α × Nat :=
  let data := swapAt data a pivot
  partitionEqualLoop less a data.length data (a + 1) (b - 1)

/-- The loop `for i < b && !data.Less(i, i-1) { i++ }`; the result is `i`. -/
def scanSorted {α : Type} (less : α → α → Bool) (data : List α) (b : Nat) : Nat → Nat → Nat
  | 0, i => i
  | fuel + 1, i =>
    if i < b && !lessAt less data i (i - 1) then scanSorted less data b fuel (i + 1) else i

/-- The loop `for j := i - 1; j >= 1; j--` of Go
`partialInsertionSortLessFunc`, which shifts the smaller element to the left. -/
def shiftSmaller {α : Type} (less : α → α → Bool) : Nat → List α → Nat → List α
  | 0, data, _ => data
  | fuel + 1, data, j =>
    if j ≥ 1 then
      if !lessAt less data j (j - 1) then data
      else shiftSmaller less fuel (swapAt data j (j - 1)) (j - 1)
    else data

/-- The loop `for j := i + 1; j < b; j++` of Go
`partialInsertionSortLessFunc`, which shifts the greater element to the right. -/
def shiftGreater {α : Type} (less : α → α → Bool) (b : Nat) : Nat → List α → Nat → List α
  | 0, data, _ => data
  | fuel + 1, data, j =>
    if j < b then
      if !lessAt less data j (j - 1) then data
      else shiftGreater less b fuel (swapAt data j (j - 1)) (j + 1)
    else data

/-- The loop `for j := 0; j < maxSteps; j++` of Go
`partialInsertionSortLessFunc`, with `steps` iterations left. -/
def partialInsertionSortLoop {α : Type} (less : α → α → Bool) (a b : Nat) :
    Nat → List α → Nat → List α × Bool
  | 0, data, _ => (data, false)
  | steps + 1, data, i =>
    let i := scanSorted less data b data.length i
    if i = b then (data, true)
    else if b - a < 50 then (data, false)
    else
      let data := swapAt data i (i - 1)
      -- Shift the smaller one to the left.
      let data := if i - a ≥ 2 then shiftSmaller less data.length data (i - 1) else data
      -- Shift the greater one to the right.
      let data := if b - i ≥ 2 then shiftGreater less b data.length data (i + 1) else data
      partialInsertionSortLoop less a b steps data i

/-- Go `partialInsertionSortLessFunc(data, a, b)`: partially sort `data[a:b]`;
the flag tells whether it is sorted at the end. -/
def partialInsertionSortLessFunc {α : Type} (less : α → α → Bool) (data : List α) (a b : Nat) :
    List α × Bool :=
  partialInsertionSortLoop less a b 5 data (a + 1)

/-- Go `bits.Len`: the number of bits needed to write `n`. -/
def bitsLen : Nat → Nat → Nat
  | 0, _ => 0
  | fuel + 1, n => if n = 0 then 0 else 1 + bitsLen fuel (n / 2)

/-- Go `xorshift.Next` on a `uint64` state. -/
def xorshiftNext (r : Nat) : Nat :=
  let r := r ^^^ ((r <<< 13) % 18446744073709551616)
  let r := r ^^^ (r >>> 17)
  r ^^^ ((r <<< 5) % 18446744073709551616)

/-- Go `breakPatternsLessFunc(data, a, b)`. -/
def breakPatternsLessFunc {α : Type} (data : List α) (a b : Nat) : List α :=
  let length := b - a
  if length ≥ 8 then
    let modulus := 2 ^ bitsLen (length + 1) length
    let idx := a + (length / 4) * 2 - 1
    let step := fun (s : List α × Nat) (i : Nat) =>
      let random := xorshiftNext s.2
      let other := random &&& (modulus - 1)
      let other := if other ≥ length then other - length else other
      (swapAt s.1 (idx - 1 + i) (a + other), random)
    ([0, 1, 2].foldl step (data, length)).1
  else data

/-- Go `order2LessFunc`: the indices `a`, `b` in the order of their elements,
and the count of swaps. -/
def order2LessFunc {α : Type} (less : α → α → Bool) (data : List α) (a b swaps : Nat) :
    Nat × Nat × Nat :=
  if lessAt less data b a then (b, a, swaps + 1) else (a, b, swaps)

/-- Go `medianLessFunc`: the index of the median of three elements, and the
count of swaps. -/
def medianLessFunc {α : Type} (less : α → α → Bool) (data : List α) (a b c swaps : Nat) :
    Nat × Nat :=
  let r := order2LessFunc less data a b swaps
  let a := r.1
  let b := r.2.1
  let r := order2LessFunc less data b c r.2.2
  let b := r.1
  let r := order2LessFunc less data a b r.2.2
  (r.2.1, r.2.2)

/-- Go `medianAdjacentLessFunc`. -/
def medianAdjacentLessFunc {α : Type} (less : α → α → Bool) (data : List α) (a swaps : Nat) :
    Nat × Nat :=
  medianLessFunc less data (a - 1) a (a + 1) swaps

/-- Go `sortedHint`. -/
inductive SortedHint where
  | unknownHint
  | increasingHint
  | decreasingHint
  deriving DecidableEq, Repr

/-- Go `choosePivotLessFunc(data, a, b)`: the index of the pivot and a hint. -/
def choosePivotLessFunc {α : Type} (less : α → α → Bool) (data : List α) (a b : Nat) :
    Nat × SortedHint :=
  let l := b - a
  let i := a + l / 4 * 1
  let j := a + l / 4 * 2
  let k := a + l / 4 * 3
  let r : Nat × Nat :=
    if l ≥ 8 then
      if l ≥ 50 then
        -- Tukey ninther method, the idea came from Rust's implementation.
        let ri := medianAdjacentLessFunc less data i 0
        let rj := medianAdjacentLessFunc less data j ri.2
        let rk := medianAdjacentLessFunc less data k rj.2
        -- Find the median among i, j, k and stores it into j.
        medianLessFunc less data ri.1 rj.1 rk.1 rk.2
      else medianLessFunc less data i j k 0
    else (j, 0)
  if r.2 = 0 then (r.1, .increasingHint)
  else if r.2 = 4 * 3 then (r.1, .decreasingHint)
  else (r.1, .unknownHint)

/-- The loop of Go `reverseRangeLessFunc`. -/
def reverseRangeLoop {α : Type} : Nat → List α → Nat → Nat → List α
  | 0, data, _, _ => data
  | fuel + 1, data, i, j =>
    if i < j then reverseRangeLoop fuel (swapAt data i j) (i + 1) (j - 1) else data

/-- Go `reverseRangeLessFunc(data, a, b)`. -/
def reverseRangeLessFunc {α : Type} (data : List α) (a b : Nat) : List α :=
  reverseRangeLoop data.length data a (b - 1)

/-- Go `pdqsortLessFunc(data, a, b, limit)`: the loop of the function, entered
with the flags `wasBalanced` and `wasPartitioned`. Every round of the loop and
every recursive call works on a shorter range, so that `fuel` above the length
of the range is never used up. -/
def pdqsortLessFunc {α : Type} (less : α → α → Bool) :
    Nat → List α → Nat → Nat → Nat → Bool → Bool → List α
  | 0, data, _, _, _, _, _ => data
  | fuel + 1, data, a, b, limit, wasBalanced, wasPartitioned =>
    let length := b - a
    if length ≤ 12 then insertionSortLessFunc less data a b
    -- Fall back to heapsort if too many bad choices were made.
    else if limit = 0 then heapSortLessFunc less data a b
    else
      -- If the last partitioning was imbalanced, we need to breakPatterns.
      let data := if !wasBalanced then breakPatternsLessFunc data a b else data
      let limit := if !wasBalanced then limit - 1 else limit
      let ph := choosePivotLessFunc less data a b
      let data := if ph.2 = .decreasingHint then reverseRangeLessFunc data a b else data
      -- The chosen pivot was pivot-a elements after the start of the array.
      -- After reversing it is pivot-a elements before the end of the array.
      let pivot := if ph.2 = .decreasingHint then (b - 1) - (ph.1 - a) else ph.1
      let hint := if ph.2 = .decreasingHint then SortedHint.increasingHint else ph.2
      -- The slice is likely already sorted.
      let ps : List α × Bool :=
        if wasBalanced && wasPartitioned && decide (hint = .increasingHint) then
          partialInsertionSortLessFunc less data a b
        else (data, false)
      if ps.2 then ps.1
      else
        let data := ps.1
        -- Probably the slice contains many duplicate elements, partition the slice into
        -- elements equal to and elements greater than the pivot.
        if decide (a > 0) && !lessAt less data (a - 1) pivot then
          let pe := partitionEqualLessFunc less data a b pivot
          pdqsortLessFunc less fuel pe.1 pe.2 b limit wasBalanced wasPartitioned
        else
          let pt := partitionLessFunc less data a b pivot
          let data := pt.1
          let mid := pt.2.1
          let leftLen := mid - a
          let rightLen := b - mid
          let balanceThreshold := length / 8
          if leftLen < rightLen then
            let data := pdqsortLessFunc less fuel data a mid limit true true
            pdqsortLessFunc less fuel data (mid + 1) b limit
              (decide (leftLen ≥ balanceThreshold)) pt.2.2
          else
            let data := pdqsortLessFunc less fuel data (mid + 1) b limit true true
            pdqsortLessFunc less fuel data a mid limit
              (decide (rightLen ≥ balanceThreshold)) pt.2.2

/-- Go `sort.Slice(data, less)`. -/
def sortSlice {α : Type} (less : α → α → Bool) (data : List α) : List α :=
  let length := data.length
  let limit := bitsLen (length + 1) length
  pdqsortLessFunc less (length + 1) data 0 length limit true true

/-! ## `main.go` -/

/-- Go `SlackMessage`. -/
structure SlackMessage where
  UserID : String
  BotID : String
  Timestamp : Time
  Text : String
  deriving DecidableEq, Repr

/-- Go `TsRecord`. -/
structure TsRecord where
  Timestamp : Time
  Text : String
  SpentHrs : Int
  deriving DecidableEq, Repr

/-- Go `parseSlackTs`, in a process whose local zone is `loc`. -/
def parseSlackTs (loc : Location) (ts : String) : Except GoError Time :=
  let parts := stringsSplit '.' ts.data
  if parts.length < 1 then .error .unableToParseTimestamp
  else
    match ParseInt (parts.getD 0 []) with
    | .error e => .error e
    | .ok secs =>
      let timestamp := Unix loc secs 0
      if parts.length = 1 then .ok timestamp
      else
        match ParseInt (parts.getD 1 []) with
        | .error e => .error e
        | .ok microsecs => .ok (Unix loc secs (wrap64 (microsecs * 1000)))

/-- Go `getPrevWorkingDay`. -/
def getPrevWorkingDay (date : Time) : Time :=
  let shift : Int := if date.Weekday = Monday then -3 else -1
  let ymd := (date.AddDate 0 0 shift).Date
  mkDate ymd.1 ymd.2.1 ymd.2.2 0 0 0 0 UTC

/-- Go integer division `a / b` of non-negative operands; a zero divisor is a
run-time panic. -/
def goDiv (a b : Int) : Except GoError Int :=
  if b = 0 then .error .panicDivideByZero else .ok (Int.tdiv a b)

/-- Go integer remainder `a % b`; a zero divisor is a run-time panic. -/
def goMod (a b : Int) : Except GoError Int :=
  if b = 0 then .error .panicDivideByZero else .ok (Int.tmod a b)

/-- Inner loop of `extractTsRecords` (`for i, task := range tasks`), with `i`
the index of the first task in the list and `cnt = len(tasks)`. -/
def tasksLoop (m : SlackMessage) (cnt : Int) :
    Int → List (List Char) → List TsRecord → Except GoError (List TsRecord)
  | _, [], tsRecords => .ok tsRecords
  | i, task :: tasks, tsRecords => do
    let task := stringsTrimLeft "• ".data task
    let task := jiraReplaceAll 0 task
    let spent ← goDiv 8 cnt
    let spent ←
      if i = cnt - 1 then do
        let q ← goDiv 8 cnt
        let r ← goMod 8 cnt
        pure (q + r)
      else pure spent
    let r : TsRecord :=
      { Timestamp := getPrevWorkingDay m.Timestamp, Text := String.mk task, SpentHrs := spent }
    tasksLoop m cnt (i + 1) tasks (tsRecords ++ [r])

/-- Outer loop of `extractTsRecords` (`for _, m := range messages`) over the
sorted messages. -/
def messagesLoop : List SlackMessage → Time → List TsRecord → Except GoError (List TsRecord)
  | [], _, tsRecords => .ok tsRecords
  | m :: messages, dateIterator, tsRecords =>
    if m.BotID.length > 0 then messagesLoop messages dateIterator tsRecords
    else if m.Timestamp.Year = dateIterator.Year ∧ m.Timestamp.YearDay = dateIterator.YearDay then
      -- Take only first message of the day
      messagesLoop messages dateIterator tsRecords
    else
      let tasks := stringsSplit '\n' m.Text.data
      let cnt : Int := tasks.length
      match tasksLoop m cnt 0 tasks tsRecords with
      | .error e => .error e
      | .ok tsRecords => messagesLoop messages m.Timestamp tsRecords


/-- The messages that the pointers of a slice point to, when none of the
pointers is nil. -/
def derefAll : List (Option SlackMessage) → Option (List SlackMessage)
  | [] => some []
  | none :: _ => none
  | some m :: messages =>
    match derefAll messages with
    | none => none
    | some ms => some (m :: ms)

/-- Go `extractTsRecords`. The comparison function of `sort.Slice` and the
loop dereference the pointers of the slice, and the loop reaches every
element: a nil pointer anywhere in the slice makes the function panic. -/
def extractTsRecords (messages : List (Option SlackMessage)) : Except GoError (List TsRecord) :=
  match derefAll messages with
  | none => .error .panicNilPointerDereference
  | some messages =>
    let messages := sortSlice (fun a b => a.Timestamp.Before b.Timestamp) messages
    messagesLoop messages Time.zero []

deriving instance DecidableEq for Except

/-! ## Descriptions of the loops, used to state the theorems -/

/-- Hours given to the task of index `i` among `cnt` tasks, as computed in the
body of the inner loop. -/
def spentHrs (cnt i : Int) : Int :=
  if i = cnt - 1 then Int.tdiv 8 cnt + Int.tmod 8 cnt else Int.tdiv 8 cnt

/-- Text of the record of a task line: leading bullets and blanks trimmed,
Jira links replaced by their display text. -/
def taskText (task : List Char) : String :=
  String.mk (jiraReplaceAll 0 (stringsTrimLeft "• ".data task))

/-- Records that the inner loop appends for the tasks `tasks`, the first of
which has index `i`. -/
def taskRecords (m : SlackMessage) (cnt : Int) : Int → List (List Char) → List TsRecord
  | _, [] => []
  | i, task :: tasks =>
    { Timestamp := getPrevWorkingDay m.Timestamp, Text := taskText task,
      SpentHrs := spentHrs cnt i } :: taskRecords m cnt (i + 1) tasks

/-- Task lines of a message: its text split on newlines. -/
def taskLines (m : SlackMessage) : List (List Char) := stringsSplit '\n' m.Text.data

/-- Records derived from one accepted message. -/
def messageRecords (m : SlackMessage) : List TsRecord :=
  taskRecords m ((taskLines m).length : Int) 0 (taskLines m)

/-- A message is bot-authored when its `BotID` is not empty. -/
def isBot (m : SlackMessage) : Bool := decide (m.BotID.length > 0)

/-- Two times fall on the same calendar day: same year and same day of the
year, each in its own location. -/
def sameDay (t u : Time) : Bool := decide (t.Year = u.Year ∧ t.YearDay = u.YearDay)

/-- Messages that the outer loop accepts, in order, when it runs over
`messages` with the marker `dateIterator`. -/
def acceptedFrom : List SlackMessage → Time → List SlackMessage
  | [], _ => []
  | m :: messages, dateIterator =>
    if isBot m then acceptedFrom messages dateIterator
    else if sameDay m.Timestamp dateIterator then acceptedFrom messages dateIterator
    else m :: acceptedFrom messages m.Timestamp

/-- Messages that `extractTsRecords` accepts, in order. -/
def accepted (messages : List SlackMessage) : List SlackMessage :=
  acceptedFrom (sortSlice (fun a b => a.Timestamp.Before b.Timestamp) messages) Time.zero

/-- A decimal digit. -/
def isDecimalDigit (c : Char) : Prop := '0' ≤ c ∧ c ≤ '9'

instance : DecidablePred isDecimalDigit :=
  fun c => inferInstanceAs (Decidable ('0' ≤ c ∧ c ≤ '9'))

/-- Value of a string of decimal digits, read as a number in base ten. -/
def decimalValue (ds : List Char) : Nat :=
  ds.foldl (fun n c => n * 10 + (c.toNat - '0'.toNat)) 0

/-- A valid integer for `parseSlackTs`: an optional sign followed by one or
more decimal digits, with a value in the range of an `int64`. -/
def validInt64 (s : List Char) : Bool :=
  match s with
  | [] => false
  | c :: cs =>
    let ds := if c = '+' ∨ c = '-' then cs else c :: cs
    !ds.isEmpty && ds.all (fun d => decide (isDecimalDigit d)) &&
      (if c = '-' then decide (decimalValue ds ≤ 9223372036854775808)
       else decide (decimalValue ds < 9223372036854775808))

/-- The component of a timestamp string before its first `'.'`. -/
def secondsComponent (ts : String) : List Char :=
  ts.data.takeWhile (fun c => c != '.')

/-- The component of a timestamp string between its first and its second
`'.'` (up to the end when there is no second one). -/
def fractionComponent (ts : String) : List Char :=
  ((ts.data.dropWhile (fun c => c != '.')).drop 1).takeWhile (fun c => c != '.')

/-- The part of a timestamp string after its first `'.'`. -/
def fractionalPart (ts : String) : List Char :=
  (ts.data.dropWhile (fun c => c != '.')).drop 1

/-! ## Concrete inputs -/

/-- The message of the end-to-end scenario, its timestamp parsed from
`"1625097600.0"` in a process whose local zone is UTC. -/
def scenarioMessage : SlackMessage :=
  { UserID := "U1", BotID := "", Timestamp := Unix UTC 1625097600 (wrap64 (0 * 1000)),
    Text := "• Fix bug <https://x.atlassian.net/browse/AB-12|Fix login bug>\n• Write tests" }

/-- A user message of nine task lines, sent on Thursday 2021-07-01 UTC. -/
def nineLineMessage : SlackMessage :=
  { UserID := "U1", BotID := "", Timestamp := Unix UTC 1625097600 0,
    Text := "a\nb\nc\nd\ne\nf\ng\nh\ni" }

/-- A user message of two task lines, sent on Thursday 2021-07-01 UTC. -/
def twoLineMessage : SlackMessage :=
  { UserID := "U1", BotID := "", Timestamp := Unix UTC 1625097600 0, Text := "a\nb" }

/-- A user message sent on Sunday 2021-07-04 at 12:00:00 UTC. -/
def sundayMessage : SlackMessage :=
  { UserID := "U1", BotID := "", Timestamp := Unix UTC 1625400000 0, Text := "review" }

/-- A user message with empty text, sent on Thursday 2021-07-01 UTC. -/
def emptyTextMessage : SlackMessage :=
  { UserID := "U1", BotID := "", Timestamp := Unix UTC 1625097600 0, Text := "" }

/-- A user message sent on 0001-01-01 at 00:00:00 UTC, the day of the zero
`time.Time`: its timestamp is parsed from `"-62135596800"` in a process whose
local zone is UTC. -/
def yearOneMessage : SlackMessage :=
  { UserID := "U1", BotID := "", Timestamp := Unix UTC (-62135596800) 0, Text := "a" }

/-- The same user message sent one day later, on 0001-01-02 at 00:00:00 UTC. -/
def yearOneNextDayMessage : SlackMessage :=
  { UserID := "U1", BotID := "", Timestamp := Unix UTC (-62135510400) 0, Text := "a" }

/-- A bot message sent on Thursday 2021-07-01 at 08:00:00 UTC. -/
def botPrompt : SlackMessage :=
  { UserID := "", BotID := "B1", Timestamp := Unix UTC 1625126400 0, Text := "prompt" }

/-- Monday 2021-06-28 at 09:30:00 UTC. -/
def mondayMorning : Time := Unix UTC 1624872600 0

/-- Tuesday 2021-06-29 at 09:30:00 UTC. -/
def tuesdayMorning : Time := Unix UTC 1624959000 0

/-- The zone of Pyongyang since 2015: UTC+9 until 2015-08-14 15:00:00 UTC,
then UTC+8:30 until 2018-05-04 15:00:00 UTC, then UTC+9 again. -/
def pyongyang : Location := ⟨32400, [(1439564400, 30600), (1525446000, 32400)]⟩

/-- Saturday 2018-05-05 at 23:30:00 in Pyongyang (14:30:00 UTC), the day on
which the clocks there went from 23:30 of the day before to 00:00. -/
def pyongyangSaturday : Time := Unix pyongyang 1525530600 0

/-! ## The calendar -/

/-- Shape of `yearAndYday`: the day number splits into 400-year, 100-year,
4-year and 1-year cycles plus the day of the year. -/
theorem yearAndYday_cycles (d : Int) :
    ∃ n a b c r : Int, 0 ≤ a ∧ a ≤ 3 ∧ 0 ≤ b ∧ b ≤ 24 ∧ 0 ≤ c ∧ c ≤ 3 ∧ 0 ≤ r ∧
      (r ≤ 364 ∨ (r = 365 ∧ c = 3 ∧ (b ≠ 24 ∨ a = 3))) ∧
      d = 146097 * n + 36524 * a + 1461 * b + 365 * c + r ∧
      yearAndYday d = (400 * n + 100 * a + 4 * b + c + -292277022399, r) := by
  simp only [yearAndYday]
  generalize hn : d / 146097 = n
  generalize hd1 : d - 146097 * n = d1
  have h1 : 0 ≤ d1 ∧ d1 ≤ 146096 := by omega
  generalize ha0 : d1 / 36524 = a0
  have h2 : 0 ≤ a0 ∧ a0 ≤ 4 := by omega
  generalize ha : a0 - a0 / 4 = a
  have h3 : 0 ≤ a ∧ a ≤ 3 ∧ (a0 = 4 → a = 3) ∧ (a0 ≤ 3 → a = a0) := by omega
  generalize hd2 : d1 - 36524 * a = d2
  have h4 : 0 ≤ d2 ∧ d2 ≤ 36524 ∧ (a ≠ 3 → d2 ≤ 36523) := by omega
  generalize hb : d2 / 1461 = b
  have h5 : 0 ≤ b ∧ b ≤ 24 := by omega
  generalize hd3 : d2 - 1461 * b = d3
  have h6 : 0 ≤ d3 ∧ d3 ≤ 1460 ∧ (b = 24 → a ≠ 3 → d3 ≤ 1459) := by omega
  generalize hc0 : d3 / 365 = c0
  have h7 : 0 ≤ c0 ∧ c0 ≤ 4 := by omega
  generalize hc : c0 - c0 / 4 = c
  have h8 : 0 ≤ c ∧ c ≤ 3 ∧ (c0 = 4 → c = 3) ∧ (c0 ≤ 3 → c = c0) := by omega
  refine ⟨n, a, b, c, d3 - 365 * c, ?_, ?_, ?_, ?_, ?_, ?_, ?_, ?_, ?_, rfl⟩ <;> omega

/-- Value of `daysSinceEpoch` on a year given by its cycle decomposition, as
long as the count of days fits in a `uint64`. -/
theorem daysSinceEpoch_cycles (n a b c : Int) (hn : 0 ≤ n) (ha : 0 ≤ a ∧ a ≤ 3)
    (hb : 0 ≤ b ∧ b ≤ 24) (hc : 0 ≤ c ∧ c ≤ 3)
    (hfit : 146097 * n + 36524 * a + 1461 * b + 365 * c < 18446744073709551616) :
    daysSinceEpoch (400 * n + 100 * a + 4 * b + c + -292277022399) =
      146097 * n + 36524 * a + 1461 * b + 365 * c := by
  simp only [daysSinceEpoch, wrapU64]
  have e0 : (400 * n + 100 * a + 4 * b + c + -292277022399 - -292277022399) %
      18446744073709551616 = 400 * n + 100 * a + 4 * b + c := by omega
  rw [e0]
  have e1 : (400 * n + 100 * a + 4 * b + c) / 400 = n := by omega
  rw [e1]
  have e2 : (400 * n + 100 * a + 4 * b + c - 400 * n) / 100 = a := by omega
  rw [e2]
  have e3 : (400 * n + 100 * a + 4 * b + c - 400 * n - 100 * a) / 4 = b := by omega
  rw [e3]
  omega

/-- Leap years in terms of the cycle decomposition. -/
theorem isLeap_cycles (n a b c : Int) (ha : 0 ≤ a ∧ a ≤ 3) (hb : 0 ≤ b ∧ b ≤ 24)
    (hc : 0 ≤ c ∧ c ≤ 3) :
    isLeap (400 * n + 100 * a + 4 * b + c + -292277022399) = true ↔
      (c = 3 ∧ (b ≠ 24 ∨ a = 3)) := by
  simp only [isLeap, Bool.and_eq_true, Bool.or_eq_true, decide_eq_true_eq]
  omega

/-- Round trip of `yearAndYday` for the day numbers that a `uint64` count of
seconds gives. -/
theorem yearAndYday_spec (d : Int) (h0 : 0 ≤ d) (h1 : d < 213503982334602) :
    daysSinceEpoch (yearAndYday d).1 + (yearAndYday d).2 = d ∧
    0 ≤ (yearAndYday d).2 ∧
    (yearAndYday d).2 < (if isLeap (yearAndYday d).1 then 366 else 365) := by
  obtain ⟨n, a, b, c, r, ha0, ha3, hb0, hb3, hc0, hc3, hr0, hr, hd, he⟩ := yearAndYday_cycles d
  rw [he]
  simp only
  rw [daysSinceEpoch_cycles n a b c (by omega) ⟨ha0, ha3⟩ ⟨hb0, hb3⟩ ⟨hc0, hc3⟩ (by omega)]
  refine ⟨by omega, hr0, ?_⟩
  by_cases h : isLeap (400 * n + 100 * a + 4 * b + c + -292277022399) = true
  · rw [if_pos h]; omega
  · rw [if_neg h]
    rw [isLeap_cycles n a b c ⟨ha0, ha3⟩ ⟨hb0, hb3⟩ ⟨hc0, hc3⟩] at h
    omega


/-- The table `daysBefore`, entry by entry. -/
theorem daysBefore_cases (m : Int) (h0 : 0 ≤ m) (h1 : m ≤ 12) :
    (m = 0 ∧ daysBefore m = 0) ∨ (m = 1 ∧ daysBefore m = 31) ∨ (m = 2 ∧ daysBefore m = 59) ∨
    (m = 3 ∧ daysBefore m = 90) ∨ (m = 4 ∧ daysBefore m = 120) ∨ (m = 5 ∧ daysBefore m = 151) ∨
    (m = 6 ∧ daysBefore m = 181) ∨ (m = 7 ∧ daysBefore m = 212) ∨ (m = 8 ∧ daysBefore m = 243) ∨
    (m = 9 ∧ daysBefore m = 273) ∨ (m = 10 ∧ daysBefore m = 304) ∨ (m = 11 ∧ daysBefore m = 334) ∨
    (m = 12 ∧ daysBefore m = 365) := by
  have : m = 0 ∨ m = 1 ∨ m = 2 ∨ m = 3 ∨ m = 4 ∨ m = 5 ∨ m = 6 ∨ m = 7 ∨ m = 8 ∨ m = 9 ∨
      m = 10 ∨ m = 11 ∨ m = 12 := by omega
  rcases this with h | h | h | h | h | h | h | h | h | h | h | h | h <;> subst h <;> decide

/-- The month estimate of `monthAndDay` on a day of a year without its leap
day. -/
theorem monthEstimate_spec (day : Int) (h0 : 0 ≤ day) (h1 : day ≤ 364) :
    ∃ m dd : Int,
      (if day ≥ daysBefore (day / 31 + 1) then (day / 31 + 2, day - daysBefore (day / 31 + 1) + 1)
        else (day / 31 + 1, day - daysBefore (day / 31) + 1)) = (m, dd) ∧
      1 ≤ m ∧ m ≤ 12 ∧ 1 ≤ dd ∧ daysBefore (m - 1) + (dd - 1) = day ∧ (m ≥ 3 ↔ day ≥ 59) := by
  generalize hq : day / 31 = q
  have hq0 : 0 ≤ q ∧ q ≤ 11 := by omega
  have hA := daysBefore_cases q hq0.1 (by omega)
  have hB := daysBefore_cases (q + 1) (by omega) (by omega)
  by_cases hc : day ≥ daysBefore (q + 1)
  · rw [if_pos hc]
    refine ⟨q + 2, day - daysBefore (q + 1) + 1, rfl, ?_⟩
    have e : q + 2 - 1 = q + 1 := by omega
    rw [e]
    omega
  · rw [if_neg hc]
    refine ⟨q + 1, day - daysBefore q + 1, rfl, ?_⟩
    have e : q + 1 - 1 = q := by omega
    rw [e]
    omega

/-- Round trip of `monthAndDay`: month and day of the month are in range and
give back the day of the year. -/
theorem monthAndDay_spec (y r : Int) (h0 : 0 ≤ r) (h1 : r < (if isLeap y then 366 else 365)) :
    1 ≤ (monthAndDay y r).1 ∧ (monthAndDay y r).1 ≤ 12 ∧ 1 ≤ (monthAndDay y r).2 ∧
    daysBefore ((monthAndDay y r).1 - 1) +
      (if isLeap y && decide ((monthAndDay y r).1 ≥ 3) then 1 else 0) +
      ((monthAndDay y r).2 - 1) = r := by
  unfold monthAndDay
  cases hl : isLeap y
  · simp only [hl, Bool.false_and, Bool.false_eq_true, if_false] at h1 ⊢
    obtain ⟨m, dd, he, hm1, hm2, hd, hs, _⟩ := monthEstimate_spec r h0 (by omega)
    rw [he]
    simp only
    omega
  · simp only [hl, Bool.true_and, if_true, decide_eq_true_eq] at h1 ⊢
    by_cases h59 : r = 31 + 29 - 1
    · rw [if_pos h59]
      simp only
      have : daysBefore (2 - 1) = 31 := by decide
      rw [this]
      have : ¬ ((2 : Int) ≥ 3) := by omega
      rw [if_neg this]
      omega
    · rw [if_neg h59]
      by_cases hgt : r > 31 + 29 - 1
      · rw [if_pos hgt]
        obtain ⟨m, dd, he, hm1, hm2, hd, hs, hm3⟩ := monthEstimate_spec (r - 1) (by omega) (by omega)
        rw [he]
        simp only
        have : m ≥ 3 := hm3.2 (by omega)
        rw [if_pos this]
        omega
      · rw [if_neg hgt]
        obtain ⟨m, dd, he, hm1, hm2, hd, hs, hm3⟩ := monthEstimate_spec r (by omega) (by omega)
        rw [he]
        simp only
        have : ¬ (m ≥ 3) := fun h => by have := hm3.1 h; omega
        rw [if_neg this]
        omega

/-- The function `norm` leaves a value that is in range alone. -/
theorem norm_id (hi lo base : Int) (h0 : 0 ≤ lo) (h1 : lo < base) : norm hi lo base = (hi, lo) := by
  have a : ¬ lo < 0 := by omega
  have b : ¬ lo ≥ base := by omega
  simp only [norm, if_neg a, if_neg b]

/-- The value of `wrap64` on an integer in the range of an `int64`. -/
theorem wrap64_id (x : Int) (h0 : -9223372036854775808 ≤ x) (h1 : x < 9223372036854775808) :
    wrap64 x = x := by
  simp only [wrap64]; omega

/-- The value of `wrapU64` on an integer in the range of a `uint64`. -/
theorem wrapU64_id (x : Int) (h0 : 0 ≤ x) (h1 : x < 18446744073709551616) : wrapU64 x = x := by
  simp only [wrapU64]; omega

/-- The nanosecond field survives the conversion through an integer. -/
theorem nsecOfInt_val (n : Fin 1000000000) : nsecOfInt (n.val : Int) = n := by
  apply Fin.ext
  simp only [nsecOfInt]
  have := n.isLt
  omega

/-- The function `mkDate` on fields that are in range and give a day number
`day0 + k` that a `uint64` count of seconds can hold. -/
theorem mkDate_inRange (y m d h mi sc ns : Int) (loc : Location) (hm : 1 ≤ m ∧ m ≤ 12)
    (hh : 0 ≤ h ∧ h < 24) (hmi : 0 ≤ mi ∧ mi < 60) (hs : 0 ≤ sc ∧ sc < 60)
    (hns : 0 ≤ ns ∧ ns < 1000000000) (n : Int)
    (hn : daysSinceEpoch y + daysBefore (m - 1) +
      (if isLeap y && decide (m ≥ 3) then 1 else 0) + (d - 1) = n)
    (hn0 : 0 ≤ n) (hn1 : n < 213503982334601) :
    mkDate y m d h mi sc ns loc =
      ⟨wrap64 (adjustToUTC loc (wrap64 (n * 86400 + (h * 3600 + mi * 60 + sc) +
          -9223372028715321600)) + 62135596800), nsecOfInt ns, loc⟩ := by
  simp only [mkDate]
  rw [norm_id y (m - 1) 12 (by omega) (by omega), norm_id sc ns 1000000000 hns.1 hns.2]
  simp only
  rw [norm_id mi sc 60 hs.1 hs.2]
  simp only
  rw [norm_id h mi 60 hmi.1 hmi.2]
  simp only
  rw [norm_id d h 24 hh.1 hh.2]
  simp only
  have e : m - 1 + 1 = m := by omega
  rw [e]
  have e2 : (if (isLeap y && decide (m ≥ 3)) = true then
      daysSinceEpoch y + daysBefore (m - 1) + 1 else daysSinceEpoch y + daysBefore (m - 1)) +
      (d - 1) = n := by
    rw [← hn]
    by_cases hl : (isLeap y && decide (m ≥ 3)) = true
    · rw [if_pos hl, if_pos hl]
    · rw [if_neg hl, if_neg hl]; omega
  rw [e2, wrapU64_id n hn0 (by omega), wrapU64_id _ (by omega) (by omega)]

/-- Rebuilding a date from the calendar fields of `t`, `k` days later. -/
theorem mkDate_Date (t : Time) (k h mi sc ns : Int) (loc : Location)
    (hh : 0 ≤ h ∧ h < 24) (hmi : 0 ≤ mi ∧ mi < 60) (hs : 0 ≤ sc ∧ sc < 60)
    (hns : 0 ≤ ns ∧ ns < 1000000000) (hk0 : 0 ≤ t.absDay + k)
    (hk1 : t.absDay + k < 213503982334601) :
    mkDate t.Date.1 t.Date.2.1 (t.Date.2.2 + k) h mi sc ns loc =
      ⟨wrap64 (adjustToUTC loc (wrap64 ((t.absDay + k) * 86400 + (h * 3600 + mi * 60 + sc) +
          -9223372028715321600)) + 62135596800), nsecOfInt ns, loc⟩ := by
  have hd0 : 0 ≤ t.absDay ∧ t.absDay < 213503982334602 := by
    simp only [Time.absDay, Time.abs, wrapU64]; omega
  obtain ⟨h1, h2, h3⟩ := yearAndYday_spec t.absDay hd0.1 hd0.2
  obtain ⟨m1, m2, m3, m4⟩ := monthAndDay_spec _ _ h2 h3
  simp only [Time.Date]
  exact mkDate_inRange _ _ _ _ _ _ _ loc ⟨m1, m2⟩ hh hmi hs hns (t.absDay + k) (by omega) hk0 hk1

/-- The weekday of a time in terms of its day number. -/
theorem Weekday_eq (t : Time) (h : t.abs + 86400 < 18446744073709551616) :
    t.Weekday = (t.absDay + 1) % 7 := by
  have h0 : 0 ≤ t.abs := by simp only [Time.abs, wrapU64]; omega
  simp only [Time.Weekday, Time.absDay]
  rw [wrapU64_id _ (by omega) h]
  omega

/-- The local seconds count of a time whose seconds are well inside the range
of an `int64`, in a location whose offset at that instant is `o`. -/
theorem abs_eq (t : Time) (o : Int) (hlo : -9223371966579724800 + 86400 ≤ t.ext)
    (hhi : t.ext < 9223372036854775808) (ho : -86400 ≤ o ∧ o ≤ 86400)
    (hoff : t.loc.offsetAt t.unixSec = o) :
    t.unixSec = t.ext - 62135596800 ∧ t.abs = t.ext + o + 9223371966579724800 := by
  have hu : t.unixSec = t.ext - 62135596800 := by
    simp only [Time.unixSec]; exact wrap64_id _ (by omega) (by omega)
  refine ⟨hu, ?_⟩
  simp only [Time.abs]
  rw [hoff, hu]
  rw [wrapU64_id _ (by omega) (by omega)]
  omega

/-- In UTC nothing is adjusted. -/
theorem adjustToUTC_UTC (unix : Int) : adjustToUTC UTC unix = unix := by
  simp [adjustToUTC, UTC, Location.lookup, lookupFrom]

/-- The adjustment to UTC subtracts the offset `o` when the location has this
offset both at the local time read as UTC and at the adjusted instant. -/
theorem adjustToUTC_eq (loc : Location) (unix o : Int)
    (hu : -9223372036854775808 ≤ unix ∧ unix < 9223372036854775808)
    (h1 : loc.offsetAt unix = o) (h2 : loc.offsetAt (wrap64 (unix - o)) = o) :
    adjustToUTC loc unix = wrap64 (unix - o) := by
  simp only [adjustToUTC]
  have e : (loc.lookup unix).1 = o := h1
  rw [e]
  by_cases ho : o = 0
  · subst ho
    simp only [ne_eq, not_true_eq_false, if_false, sub_zero]
    exact (wrap64_id _ hu.1 hu.2).symm
  · rw [if_pos ho]
    by_cases hc : wrap64 (unix - o) < (loc.lookup unix).2.1 ∨ wrap64 (unix - o) ≥ (loc.lookup unix).2.2
    · rw [if_pos hc, h2]
    · rw [if_neg hc]

/-- A local time exists in a location that has one offset at the local time
read as UTC and at the instant this offset gives. -/
theorem hasLocalTime_of_offset (loc : Location) (wall o : Int)
    (hu : -9223372036854775808 + 86400 ≤ wall ∧ wall < 9223372036854775808 - 86400)
    (ho : -86400 ≤ o ∧ o ≤ 86400)
    (h1 : loc.offsetAt wall = o) (h2 : loc.offsetAt (wall - o) = o) :
    loc.hasLocalTime wall := by
  have e : wrap64 (wall - o) = wall - o := wrap64_id _ (by omega) (by omega)
  simp only [Location.hasLocalTime]
  rw [adjustToUTC_eq loc wall o ⟨by omega, by omega⟩ h1 (by rw [e]; exact h2), e, h2]
  omega

/-- Adding `k` days (`-3 ≤ k ≤ -1`) with `AddDate` moves the local time by `k`
times 24 hours when the new local time exists in the location. -/
theorem AddDate_days (t : Time) (k : Int) (hk : -3 ≤ k ∧ k ≤ -1)
    (hlo : -9223371966579724800 + 4 * 86400 ≤ t.ext)
    (hhi : t.ext < 9223372036854775808 - 86400)
    (hoff : ∀ u, -86400 ≤ t.loc.offsetAt u ∧ t.loc.offsetAt u ≤ 86400)
    (hex : t.loc.hasLocalTime (t.unixSec + t.loc.offsetAt t.unixSec + k * 86400)) :
    (t.AddDate 0 0 k).abs = t.abs + k * 86400 := by
  generalize ho : t.loc.offsetAt t.unixSec = o at hex
  have hob := hoff t.unixSec
  rw [ho] at hob
  obtain ⟨hu, habs⟩ := abs_eq t o (by omega) (by omega) hob ho
  simp only [Time.AddDate, add_zero]
  have hn := t.nsec.isLt
  have hday : t.absDay = (t.ext + o + 9223371966579724800) / 86400 := by
    simp only [Time.absDay, habs]
  rw [mkDate_Date t k _ _ _ _ t.loc (by simp only [Time.Clock]; omega)
    (by simp only [Time.Clock]; omega) (by simp only [Time.Clock]; omega) (by omega)
    (by omega) (by omega)]
  have hU : (t.absDay + k) * 86400 + ((t.Clock).1 * 3600 + (t.Clock).2.1 * 60 + (t.Clock).2.2) +
      -9223372028715321600 = t.unixSec + o + k * 86400 := by
    simp only [Time.Clock, hday, habs, hu]
    omega
  rw [hU, wrap64_id (t.unixSec + o + k * 86400) (by omega) (by omega)]
  simp only [Location.hasLocalTime] at hex
  generalize hw : adjustToUTC t.loc (t.unixSec + o + k * 86400) = w at hex
  have hwb := hoff w
  have e1 : wrap64 (w + 62135596800) = w + 62135596800 := wrap64_id _ (by omega) (by omega)
  simp only [Time.abs, Time.unixSec, e1]
  have e2 : w + 62135596800 - 62135596800 = w := by omega
  rw [e2, wrap64_id w (by omega) (by omega), wrapU64_id _ (by omega) (by omega)]
  have := abs_eq t o (by omega) (by omega) hob ho
  simp only [Time.abs, Time.unixSec] at this
  omega

/-- Closed form of `getPrevWorkingDay`: midnight UTC of the day that lies 3
days (for a Monday) or 1 day (otherwise) before the local calendar day of the
input, when the local time that many days earlier exists in the location. -/
theorem getPrevWorkingDay_eq (date : Time)
    (hlo : -9223371966579724800 + 4 * 86400 ≤ date.ext)
    (hhi : date.ext < 9223372036854775808 - 86400)
    (hoff : ∀ u, -86400 ≤ date.loc.offsetAt u ∧ date.loc.offsetAt u ≤ 86400)
    (hex : date.loc.hasLocalTime (date.unixSec + date.loc.offsetAt date.unixSec -
      (if date.Weekday = Monday then 3 else 1) * 86400)) :
    getPrevWorkingDay date =
      ⟨(date.absDay - (if date.Weekday = Monday then 3 else 1)) * 86400 - 9223371966579724800,
        0, UTC⟩ := by
  have hob := hoff date.unixSec
  obtain ⟨hu, habs⟩ := abs_eq date _ (by omega) (by omega) hob rfl
  simp only [getPrevWorkingDay]
  generalize hk : (if date.Weekday = Monday then (-3 : Int) else -1) = k
  have hk2 : (if date.Weekday = Monday then (3 : Int) else 1) = -k := by
    rw [← hk]; split_ifs <;> rfl
  have hkr : -3 ≤ k ∧ k ≤ -1 := by rw [← hk]; split_ifs <;> omega
  rw [hk2] at hex ⊢
  have hex2 : date.loc.hasLocalTime (date.unixSec + date.loc.offsetAt date.unixSec + k * 86400) := by
    have e : date.unixSec + date.loc.offsetAt date.unixSec + k * 86400 =
        date.unixSec + date.loc.offsetAt date.unixSec - -k * 86400 := by omega
    rw [e]; exact hex
  have hadd := AddDate_days date k hkr hlo hhi hoff hex2
  have hday2 : (date.AddDate 0 0 k).absDay = date.absDay + k := by
    simp only [Time.absDay, hadd]
    omega
  have hday : date.absDay = (date.ext + date.loc.offsetAt date.unixSec +
      9223371966579724800) / 86400 := by
    simp only [Time.absDay, habs]
  have h := mkDate_Date (date.AddDate 0 0 k) 0 0 0 0 0 UTC
    (by omega) (by omega) (by omega) (by omega) (by rw [hday2]; omega) (by rw [hday2]; omega)
  simp only [add_zero] at h
  rw [h, hday2]
  have e : nsecOfInt 0 = 0 := by decide
  rw [e]
  have hin : -9223372036854775808 ≤ (date.absDay + k) * 86400 + (0 * 3600 + 0 * 60) +
      -9223372028715321600 ∧ (date.absDay + k) * 86400 + (0 * 3600 + 0 * 60) +
      -9223372028715321600 < 9223372036854775808 := by omega
  generalize hx : (date.absDay + k) * 86400 + (0 * 3600 + 0 * 60) +
      -9223372028715321600 = x at hin
  have hx2 : x = (date.absDay + k) * 86400 - 9223372028715321600 := by omega
  rw [wrap64_id x hin.1 hin.2, adjustToUTC_UTC, wrap64_id (x + 62135596800) (by omega) (by omega)]
  have e3 : x + 62135596800 = (date.absDay - -k) * 86400 - 9223371966579724800 := by omega
  rw [e3]

/-- The local time 1 to 3 days before a date exists in a location that keeps
one offset from 5 days before the date to 1 day after it. -/
theorem hasLocalTime_of_window (t : Time) (k o : Int) (hk : -3 ≤ k ∧ k ≤ -1)
    (hlo : -9223371966579724800 + 4 * 86400 ≤ t.ext)
    (hhi : t.ext < 9223372036854775808 - 86400) (ho : -86400 ≤ o ∧ o ≤ 86400)
    (hwin : ∀ u, t.unixSec - 5 * 86400 ≤ u → u ≤ t.unixSec + 86400 → t.loc.offsetAt u = o) :
    t.loc.hasLocalTime (t.unixSec + t.loc.offsetAt t.unixSec + k * 86400) := by
  have hu : t.unixSec = t.ext - 62135596800 := by
    simp only [Time.unixSec]; exact wrap64_id _ (by omega) (by omega)
  rw [hwin t.unixSec (by omega) (by omega)]
  apply hasLocalTime_of_offset _ _ o (by omega) ho (hwin _ (by omega) (by omega))
  have e : t.unixSec + o + k * 86400 - o = t.unixSec + k * 86400 := by omega
  rw [e]
  exact hwin _ (by omega) (by omega)

/-! ## The loops of `extractTsRecords` -/

/-- Splitting never yields an empty list of parts. -/
theorem stringsSplit_length_pos (sep : Char) (s : List Char) : 1 ≤ (stringsSplit sep s).length := by
  induction s with
  | nil => simp [stringsSplit]
  | cons c cs ih =>
    simp only [stringsSplit]
    split_ifs
    · simp
    · cases h : stringsSplit sep cs with
      | nil => simp
      | cons a t => simp

/-- The inner loop never fails when there is at least one task, and appends
`taskRecords`. -/
theorem tasksLoop_ok (m : SlackMessage) (cnt : Int) (hc : cnt ≠ 0) (i : Int)
    (tasks : List (List Char)) (acc : List TsRecord) :
    tasksLoop m cnt i tasks acc = .ok (acc ++ taskRecords m cnt i tasks) := by
  induction tasks generalizing i acc with
  | nil => simp [tasksLoop, taskRecords]
  | cons task tasks ih =>
    simp only [tasksLoop, taskRecords, goDiv, goMod, if_neg hc]
    by_cases hi : i = cnt - 1
    · simp only [if_pos hi, bind, Except.bind, pure, Except.pure]
      rw [ih]
      simp [spentHrs, taskText, hi]
    · simp only [if_neg hi, bind, Except.bind, pure, Except.pure]
      rw [ih]
      simp [spentHrs, taskText, hi]

/-- The outer loop never fails; it appends the records of the accepted
messages, message by message. -/
theorem messagesLoop_ok (messages : List SlackMessage) (dateIterator : Time)
    (acc : List TsRecord) :
    messagesLoop messages dateIterator acc =
      .ok (acc ++ (acceptedFrom messages dateIterator).flatMap messageRecords) := by
  induction messages generalizing dateIterator acc with
  | nil => simp [messagesLoop, acceptedFrom]
  | cons m ms ih =>
    simp only [messagesLoop, acceptedFrom, isBot, sameDay, decide_eq_true_eq]
    by_cases hb : m.BotID.length > 0
    · rw [if_pos hb, if_pos hb]; exact ih _ _
    · rw [if_neg hb, if_neg hb]
      by_cases hd : m.Timestamp.Year = dateIterator.Year ∧ m.Timestamp.YearDay = dateIterator.YearDay
      · rw [if_pos hd, if_pos hd]; exact ih _ _
      · rw [if_neg hd, if_neg hd]
        have hc : ((stringsSplit '\n' m.Text.data).length : Int) ≠ 0 := by
          have := stringsSplit_length_pos '\n' m.Text.data
          omega
        rw [tasksLoop_ok m _ hc]
        simp only
        rw [ih]
        simp [messageRecords, taskLines, List.flatMap_cons]

/-- Dereferencing pointers that all point to a message gives the messages. -/
theorem derefAll_map_some (messages : List SlackMessage) :
    derefAll (messages.map some) = some messages := by
  induction messages with
  | nil => rfl
  | cons m ms ih => simp [derefAll, ih]

/-- A nil pointer in the slice is found when the pointers are dereferenced. -/
theorem derefAll_of_nil_mem (messages : List (Option SlackMessage)) (h : none ∈ messages) :
    derefAll messages = none := by
  induction messages with
  | nil => simp at h
  | cons p ps ih =>
    cases p with
    | none => rfl
    | some m =>
      have : none ∈ ps := by simpa using h
      simp [derefAll, ih this]

/-- The function `extractTsRecords` returns the records of the accepted
messages. -/
theorem extractTsRecords_eq (messages : List SlackMessage) :
    extractTsRecords (messages.map some) = .ok ((accepted messages).flatMap messageRecords) := by
  simp only [extractTsRecords, accepted, derefAll_map_some]
  rw [messagesLoop_ok]
  simp

/-- Sum of the hours of the records of the tasks from index `i` on. -/
theorem taskRecords_sum (m : SlackMessage) (cnt : Int) (hc : 1 ≤ cnt) (i : Int)
    (tasks : List (List Char)) (hi : i + tasks.length = cnt) :
    ((taskRecords m cnt i tasks).map TsRecord.SpentHrs).sum =
      tasks.length * (8 / cnt) + (if tasks = [] then 0 else 8 % cnt) := by
  induction tasks generalizing i with
  | nil => simp [taskRecords]
  | cons task tasks ih =>
    simp only [taskRecords, List.map_cons, List.sum_cons]
    have hlen : ((task :: tasks).length : Int) = (tasks.length : Int) + 1 := by simp
    rw [hlen] at hi ⊢
    rw [ih (i + 1) (by omega)]
    have e1 : Int.tdiv 8 cnt = 8 / cnt := Int.tdiv_eq_ediv (by omega) (by omega)
    have e2 : Int.tmod 8 cnt = 8 % cnt := Int.tmod_eq_emod (by omega) (by omega)
    simp only [spentHrs, e1, e2, reduceCtorEq, if_false]
    cases tasks with
    | nil =>
      have : i = cnt - 1 := by simp at hi; omega
      simp [this]
    | cons t ts =>
      have : ¬ i = cnt - 1 := by simp at hi; omega
      simp only [if_neg this, reduceCtorEq, if_false]
      ring

/-! ## The insertion sort -/

/-- Every message yields at least one record. -/
theorem messageRecords_ne_nil (m : SlackMessage) : messageRecords m ≠ [] := by
  simp only [messageRecords, taskLines]
  have h := stringsSplit_length_pos '\n' m.Text.data
  cases hs : stringsSplit '\n' m.Text.data with
  | nil => rw [hs] at h; simp at h
  | cons a t => simp [taskRecords]

/-- The number of records of a list of tasks. -/
theorem taskRecords_length (m : SlackMessage) (cnt i : Int) (tasks : List (List Char)) :
    (taskRecords m cnt i tasks).length = tasks.length := by
  induction tasks generalizing i with
  | nil => rfl
  | cons t ts ih => simp [taskRecords, ih]

/-- The hours of the records of a message with `n` task lines: `8 / n` for
every line but the last, `8 / n + 8 % n` for the last. -/
theorem taskRecords_hours (m : SlackMessage) (cnt : Int) (hc : 1 ≤ cnt) (i : Int)
    (tasks : List (List Char)) (hne : tasks ≠ []) (hi : i + tasks.length = cnt) :
    (taskRecords m cnt i tasks).map TsRecord.SpentHrs =
      List.replicate (tasks.length - 1) (8 / cnt) ++ [8 / cnt + 8 % cnt] := by
  have e1 : Int.tdiv 8 cnt = 8 / cnt := Int.tdiv_eq_ediv (by omega) (by omega)
  have e2 : Int.tmod 8 cnt = 8 % cnt := Int.tmod_eq_emod (by omega) (by omega)
  induction tasks generalizing i with
  | nil => exact absurd rfl hne
  | cons task tasks ih =>
    have hlen : ((task :: tasks).length : Int) = (tasks.length : Int) + 1 := by simp
    rw [hlen] at hi
    cases tasks with
    | nil =>
      have : i = cnt - 1 := by simp at hi; omega
      simp [taskRecords, spentHrs, this, e1, e2]
    | cons t ts =>
      have hi2 : ¬ i = cnt - 1 := by simp at hi; omega
      have := ih (i + 1) (by simp) (by omega)
      simp only [taskRecords, List.map_cons] at this ⊢
      rw [this]
      simp [spentHrs, hi2, e1, List.replicate_succ]


/-! ## The claims -/

/-- C1: the records that `extractTsRecords` returns are those of the accepted
messages, message by message, and the `SpentHrs` of the records derived from
one message, whatever its text, are as many as its newline-separated lines
(at least one) and sum to exactly 8. -/
theorem hours_sum_to_eight (messages : List SlackMessage) (m : SlackMessage) :
    extractTsRecords (messages.map some) = .ok ((accepted messages).flatMap messageRecords) ∧
    1 ≤ (taskLines m).length ∧
    (messageRecords m).length = (taskLines m).length ∧
    ((messageRecords m).map TsRecord.SpentHrs).sum = 8 := by
  have hpos : 1 ≤ (taskLines m).length := stringsSplit_length_pos '\n' m.Text.data
  refine ⟨extractTsRecords_eq messages, hpos, taskRecords_length _ _ _ _, ?_⟩
  simp only [messageRecords]
  rw [taskRecords_sum m _ (by omega) 0 _ (by omega)]
  have hne : taskLines m ≠ [] := by
    intro h; rw [h] at hpos; simp at hpos
  rw [if_neg hne]
  exact Int.ediv_add_emod 8 _

set_option maxRecDepth 20000 in
/-- C2, the failing input: the one user message of 0001-01-01 00:00:00 UTC
(timestamp string `"-62135596800"`, local zone UTC) yields no record, although
it is the first message of its day; the same message one day later yields its
record. -/
theorem year_one_message_skipped :
    parseSlackTs UTC "-62135596800" = .ok yearOneMessage.Timestamp ∧
    isBot yearOneMessage = false ∧
    yearOneMessage.Timestamp.Date = (1, 1, 1) ∧
    extractTsRecords [some yearOneMessage] = .ok [] ∧
    extractTsRecords [some yearOneNextDayMessage] =
      .ok [⟨Unix UTC (-62135596800) 0, "a", 8⟩] := by
  decide

set_option maxRecDepth 20000 in
/-- C4, amended: for the message of the scenario (timestamp parsed from
`"1625097600.0"` in the zone UTC, a Thursday) `extractTsRecords` returns two
records dated Wednesday 2021-06-30 at midnight UTC, with the texts
`"Fix bug Fix login bug"` and `"Write tests"` and 4 hours each. -/
theorem scenario_records :
    parseSlackTs UTC "1625097600.0" = .ok scenarioMessage.Timestamp ∧
    scenarioMessage.Timestamp.Date = (2021, 7, 1) ∧
    scenarioMessage.Timestamp.Weekday = Thursday ∧
    extractTsRecords [some scenarioMessage] =
      .ok [⟨Unix UTC 1625011200 0, "Fix bug Fix login bug", 4⟩,
           ⟨Unix UTC 1625011200 0, "Write tests", 4⟩] ∧
    (Unix UTC 1625011200 0).Date = (2021, 6, 30) ∧
    (Unix UTC 1625011200 0).Weekday = Wednesday ∧
    (Unix UTC 1625011200 0).Clock = (0, 0, 0) := by
  decide

set_option maxRecDepth 20000 in
/-- C4, counterexample: the first record of the scenario does not have the
text `"Fix login bug"`. -/
theorem scenario_records_text_differs :
    extractTsRecords [some scenarioMessage] ≠
      .ok [⟨Unix UTC 1625011200 0, "Fix login bug", 4⟩,
           ⟨Unix UTC 1625011200 0, "Write tests", 4⟩] := by
  decide

/-- C5, amended: the records that `extractTsRecords` returns are those of the
accepted messages, message by message; a message with at most 8 task lines
yields only records with `SpentHrs` at least 1; a message with 9 or more task
lines yields `SpentHrs` 0 for every line but the last and 8 for the last. -/
theorem hours_positive_up_to_eight_lines (messages : List SlackMessage) (m : SlackMessage) :
    extractTsRecords (messages.map some) = .ok ((accepted messages).flatMap messageRecords) ∧
    ((taskLines m).length ≤ 8 → ∀ r ∈ messageRecords m, 1 ≤ r.SpentHrs) ∧
    (9 ≤ (taskLines m).length →
      (messageRecords m).map TsRecord.SpentHrs =
        List.replicate ((taskLines m).length - 1) 0 ++ [8]) := by
  have hpos : 1 ≤ (taskLines m).length := stringsSplit_length_pos '\n' m.Text.data
  have hne : taskLines m ≠ [] := by
    intro h; rw [h] at hpos; simp at hpos
  have hh := taskRecords_hours m ((taskLines m).length : Int) (by omega) 0 (taskLines m) hne
    (by omega)
  refine ⟨extractTsRecords_eq messages, ?_, ?_⟩
  · intro h8 r hr
    have hmem : r.SpentHrs ∈ (messageRecords m).map TsRecord.SpentHrs := List.mem_map_of_mem _ hr
    simp only [messageRecords] at hmem
    rw [hh] at hmem
    generalize hn : (taskLines m).length = n at hmem hpos h8
    have hn8 : n = 1 ∨ n = 2 ∨ n = 3 ∨ n = 4 ∨ n = 5 ∨ n = 6 ∨ n = 7 ∨ n = 8 := by omega
    rcases hn8 with h | h | h | h | h | h | h | h <;> subst h <;>
      simp at hmem <;> omega
  · intro h9
    simp only [messageRecords]
    rw [hh]
    have e1 : (8 : Int) / ((taskLines m).length : Int) = 0 := by
      apply Int.ediv_eq_zero_of_lt <;> omega
    have e2 : (8 : Int) % ((taskLines m).length : Int) = 8 := by
      apply Int.emod_eq_of_lt <;> omega
    rw [e1, e2]
    rfl

set_option maxRecDepth 20000 in
/-- C5, witness: the message of two lines is accepted and its two records,
which `extractTsRecords` returns, have 4 hours each. -/
theorem hours_positive_up_to_eight_lines_witness :
    (taskLines twoLineMessage).length ≤ 8 ∧
    extractTsRecords ([twoLineMessage].map some) = .ok (messageRecords twoLineMessage) ∧
    ∀ r ∈ messageRecords twoLineMessage, 1 ≤ r.SpentHrs :=
  ⟨by decide,
   (hours_positive_up_to_eight_lines [twoLineMessage] twoLineMessage).1.trans (by decide),
   (hours_positive_up_to_eight_lines [twoLineMessage] twoLineMessage).2.1 (by decide)⟩

set_option maxRecDepth 20000 in
/-- C5, counterexample: a message of nine task lines is accepted and eight of
its nine records have `SpentHrs` 0. -/
theorem hours_zero_for_nine_lines :
    (taskLines nineLineMessage).length = 9 ∧
    (extractTsRecords [some nineLineMessage]).map (fun rs => rs.map TsRecord.SpentHrs) =
      .ok [0, 0, 0, 0, 0, 0, 0, 0, 8] := by
  decide

set_option maxRecDepth 20000 in
/-- C6, the failing input: the one record of a message sent on a Sunday
(2021-07-04 12:00:00 UTC) is dated Saturday 2021-07-03 at midnight UTC. -/
theorem sunday_message_dated_saturday :
    sundayMessage.Timestamp.Weekday = Sunday ∧
    extractTsRecords [some sundayMessage] = .ok [⟨Unix UTC 1625270400 0, "review", 8⟩] ∧
    (Unix UTC 1625270400 0).Weekday = Saturday ∧
    (Unix UTC 1625270400 0).Date = (2021, 7, 3) := by
  decide

/-- C7, amended: for a date at least 5 days after the first instant of the
calendar of the `time` package and at least 1 day before the last instant a
`time.Time` can hold, in a location with offsets of at most 24 hours, such
that the local time 1 day earlier (3 days for a Monday) exists in the location, `getPrevWorkingDay` returns a time in UTC whose hour, minute,
second and nanosecond are zero, on the calendar day 3 days before the calendar
day of its input when the input is a Monday and 1 day before it otherwise; a
Tuesday gives a Monday and a Monday gives a Friday. -/
theorem getPrevWorkingDay_spec (date : Time)
    (hlo : -9223371966579724800 + 5 * 86400 ≤ date.ext)
    (hhi : date.ext < 9223372036854775808 - 86400)
    (hoff : ∀ u, -86400 ≤ date.loc.offsetAt u ∧ date.loc.offsetAt u ≤ 86400)
    (hex : date.loc.hasLocalTime (date.unixSec + date.loc.offsetAt date.unixSec -
      (if date.Weekday = Monday then 3 else 1) * 86400)) :
    (getPrevWorkingDay date).loc = UTC ∧
    (getPrevWorkingDay date).Clock = (0, 0, 0) ∧
    (getPrevWorkingDay date).nsec = 0 ∧
    (getPrevWorkingDay date).absDay =
      date.absDay - (if date.Weekday = Monday then 3 else 1) ∧
    (date.Weekday = Tuesday → (getPrevWorkingDay date).Weekday = Monday) ∧
    (date.Weekday = Monday → (getPrevWorkingDay date).Weekday = Friday) := by
  have hob := hoff date.unixSec
  obtain ⟨hu, habs⟩ := abs_eq date _ (by omega) (by omega) hob rfl
  have hd : date.absDay = (date.ext + date.loc.offsetAt date.unixSec +
      9223371966579724800) / 86400 := by
    simp only [Time.absDay, habs]
  have hwd := Weekday_eq date (by rw [habs]; omega)
  have hres := getPrevWorkingDay_eq date (by omega) hhi hoff hex
  generalize hk : (if date.Weekday = Monday then (3 : Int) else 1) = k at hres
  have hkr : 1 ≤ k ∧ k ≤ 3 := by rw [← hk]; split_ifs <;> omega
  have hrabs : (getPrevWorkingDay date).abs = (date.absDay - k) * 86400 := by
    rw [hres]
    have h := (abs_eq ⟨(date.absDay - k) * 86400 - 9223371966579724800, 0, UTC⟩ 0
      (by simp only; omega) (by simp only; omega) (by omega) rfl).2
    rw [h]
    simp only
    omega
  have hday : (getPrevWorkingDay date).absDay = date.absDay - k := by
    simp only [Time.absDay, hrabs]
    omega
  have hrwd := Weekday_eq (getPrevWorkingDay date) (by rw [hrabs]; omega)
  refine ⟨?_, ?_, ?_, hday, ?_, ?_⟩
  · rw [hres]
  · simp only [Time.Clock, hrabs]
    have : (date.absDay - k) * 86400 % 86400 = 0 := by omega
    rw [this]
    rfl
  · rw [hres]
  · intro h
    have hne : ¬ date.Weekday = Monday := by rw [h]; decide
    rw [if_neg hne] at hk
    rw [hwd] at h
    rw [hrwd, hday]
    simp only [Tuesday, Monday] at h ⊢
    omega
  · intro h
    rw [if_pos h] at hk
    rw [hwd] at h
    rw [hrwd, hday]
    simp only [Friday, Monday] at h ⊢
    omega

set_option maxRecDepth 20000 in
/-- C7, witness: in UTC, Monday 2021-06-28 gives Friday 2021-06-25 and Tuesday
2021-06-29 gives Monday 2021-06-28. -/
theorem getPrevWorkingDay_spec_witness :
    (mondayMorning.Weekday = Monday ∧ (getPrevWorkingDay mondayMorning).Weekday = Friday ∧
      (getPrevWorkingDay mondayMorning).Date = (2021, 6, 25)) ∧
    (tuesdayMorning.Weekday = Tuesday ∧ (getPrevWorkingDay tuesdayMorning).Weekday = Monday ∧
      (getPrevWorkingDay tuesdayMorning).Date = (2021, 6, 28)) :=
  ⟨⟨by decide,
    (getPrevWorkingDay_spec mondayMorning (by decide) (by decide)
      (fun _ => ⟨(by decide : (-86400 : Int) ≤ 0), (by decide : (0 : Int) ≤ 86400)⟩) (by decide)).2.2.2.2.2 (by decide), by decide⟩,
   ⟨by decide,
    (getPrevWorkingDay_spec tuesdayMorning (by decide) (by decide)
      (fun _ => ⟨(by decide : (-86400 : Int) ≤ 0), (by decide : (0 : Int) ≤ 86400)⟩) (by decide)).2.2.2.2.1 (by decide), by decide⟩⟩

set_option maxRecDepth 20000 in
/-- C7, counterexample: for Saturday 2018-05-05 23:30:00 in Pyongyang, where
the local time 23:30 of the day before was skipped by a zone transition,
`getPrevWorkingDay` returns midnight UTC of the same day, 2018-05-05. -/
theorem getPrevWorkingDay_same_day_in_zone_gap :
    pyongyangSaturday.Date = (2018, 5, 5) ∧
    pyongyangSaturday.Clock = (23, 30, 0) ∧
    pyongyangSaturday.Weekday = Saturday ∧
    (getPrevWorkingDay pyongyangSaturday).Date = (2018, 5, 5) ∧
    getPrevWorkingDay pyongyangSaturday = Unix UTC 1525478400 0 ∧
    ¬ pyongyang.hasLocalTime
      (pyongyangSaturday.unixSec + pyongyang.offsetAt pyongyangSaturday.unixSec - 1 * 86400) := by
  decide

/-- C10, amended: on every list of non-nil messages `extractTsRecords` returns a
result and no error, namely the records of the accepted messages; splitting a
text on newlines yields at least one line; every message with empty text
yields exactly one record, with empty text and 8 hours; on a list with a nil
pointer the function panics. -/
theorem extractTsRecords_total (messages : List SlackMessage) (s : String) :
    extractTsRecords (messages.map some) = .ok ((accepted messages).flatMap messageRecords) ∧
    1 ≤ (stringsSplit '\n' s.data).length ∧
    (∀ m : SlackMessage, m.Text = "" →
      messageRecords m = [⟨getPrevWorkingDay m.Timestamp, "", 8⟩]) ∧
    (∀ pointers : List (Option SlackMessage), none ∈ pointers →
      extractTsRecords pointers = .error .panicNilPointerDereference) := by
  refine ⟨extractTsRecords_eq messages, stringsSplit_length_pos _ _, ?_, ?_⟩
  · intro m ht
    simp only [messageRecords, taskLines, ht]
    rfl
  · intro pointers h
    simp only [extractTsRecords, derefAll_of_nil_mem pointers h]

set_option maxRecDepth 20000 in
/-- C10, witness: of a bot message and a user message with empty text, the
user message is accepted and yields one record of 8 hours with empty
text, dated 2021-06-30. -/
theorem extractTsRecords_total_witness :
    extractTsRecords ([botPrompt, emptyTextMessage].map some) =
      .ok (messageRecords emptyTextMessage) ∧
    messageRecords emptyTextMessage = [⟨Unix UTC 1625011200 0, "", 8⟩] :=
  ⟨(extractTsRecords_total [botPrompt, emptyTextMessage] "").1.trans (by decide),
   ((extractTsRecords_total [] "").2.2.1 emptyTextMessage rfl).trans (by decide)⟩

set_option maxRecDepth 20000 in
/-- C10, counterexample: on a slice with a nil pointer, alone or after a
message, `extractTsRecords` panics. -/
theorem extractTsRecords_panics_on_nil :
    extractTsRecords [none] = .error .panicNilPointerDereference ∧
    extractTsRecords [some sundayMessage, none] = .error .panicNilPointerDereference := by
  decide


/-! ## Parsing timestamps -/

/-- Shape of the result of `stringsSplit`: the text before the first separator,
then the parts of what follows that separator. -/
theorem stringsSplit_eq (sep : Char) (s : List Char) :
    stringsSplit sep s =
      s.takeWhile (fun c => c != sep) ::
        (if sep ∈ s then stringsSplit sep ((s.dropWhile (fun c => c != sep)).drop 1) else []) := by
  induction s with
  | nil => simp [stringsSplit]
  | cons c cs ih =>
    by_cases h : c = sep
    · subst h
      simp [stringsSplit, List.takeWhile_cons, List.dropWhile_cons]
    · have h2 : ¬ sep = c := fun e => h e.symm
      simp only [stringsSplit, if_neg h]
      rw [ih]
      simp [List.takeWhile_cons, List.dropWhile_cons, h, h2]

/-- The value read so far never decreases along a string of digits. -/
theorem decimal_fold_ge (ds : List Char) (n : Nat) :
    n ≤ ds.foldl (fun n c => n * 10 + (c.toNat - '0'.toNat)) n := by
  induction ds generalizing n with
  | nil => simp
  | cons c cs ih =>
    simp only [List.foldl_cons]
    have := ih (n * 10 + (c.toNat - '0'.toNat))
    omega

/-- On a string of digits whose value fits in 64 bits the loop of `ParseUint`
returns that value. -/
theorem parseUintLoop_digits (ds : List Char) (n : Nat) (hd : ∀ c ∈ ds, isDecimalDigit c)
    (hv : ds.foldl (fun n c => n * 10 + (c.toNat - '0'.toNat)) n < 18446744073709551616) :
    parseUintLoop ds n = .ok (ds.foldl (fun n c => n * 10 + (c.toNat - '0'.toNat)) n) := by
  induction ds generalizing n with
  | nil => rfl
  | cons c cs ih =>
    simp only [List.foldl_cons] at hv ⊢
    have hc : '0' ≤ c ∧ c ≤ '9' := hd c (by simp)
    have hge := decimal_fold_ge cs (n * 10 + (c.toNat - '0'.toNat))
    simp only [parseUintLoop, if_pos hc]
    have h1 : ¬ n ≥ 1844674407370955162 := by omega
    rw [if_neg h1]
    have h2 : (n * 10 + (c.toNat - '0'.toNat)) % 18446744073709551616 =
        n * 10 + (c.toNat - '0'.toNat) := Nat.mod_eq_of_lt (by omega)
    simp only [h2]
    have h3 : ¬ (n * 10 + (c.toNat - '0'.toNat) < n * 10 ∨
        n * 10 + (c.toNat - '0'.toNat) > 18446744073709551615) := by omega
    rw [if_neg h3]
    exact ih _ (fun c hc => hd c (List.mem_cons_of_mem _ hc)) hv

/-- A decimal digit is not a sign. -/
theorem isDecimalDigit_not_sign (c : Char) (h : isDecimalDigit c) : c ≠ '+' ∧ c ≠ '-' ∧ c ≠ '.' := by
  refine ⟨?_, ?_, ?_⟩ <;> (intro e; subst e; unfold isDecimalDigit at h; revert h; decide)

/-- On a non-empty string of digits whose value fits in an `int64`, `ParseInt`
returns that value. -/
theorem ParseInt_digits (ds : List Char) (hne : ds ≠ []) (hd : ∀ c ∈ ds, isDecimalDigit c)
    (hv : decimalValue ds < 9223372036854775808) :
    ParseInt ds = .ok (decimalValue ds : Int) := by
  cases ds with
  | nil => exact absurd rfl hne
  | cons c cs =>
    obtain ⟨hp, hm, _⟩ := isDecimalDigit_not_sign c (hd c (by simp))
    have hs : ¬ (c = '+' ∨ c = '-') := by tauto
    have hpu : parseUintLoop (c :: cs) 0 = .ok (decimalValue (c :: cs)) :=
      parseUintLoop_digits (c :: cs) 0 hd (lt_trans hv (by decide))
    simp only [ParseInt, if_neg hs, ParseUint, reduceCtorEq, if_false]
    rw [hpu]
    generalize decimalValue (c :: cs) = v at hv
    simp only [hm, decide_False, Bool.not_false, Bool.true_and, Bool.false_and,
      Bool.false_eq_true, if_false, decide_eq_true_eq]
    rw [if_neg (by omega)]
    have hw : ((v : Int) + 9223372036854775808) % 18446744073709551616 - 9223372036854775808 =
        (v : Int) := by omega
    simp only [wrap64, hw]

/-- The numeric value of a decimal digit. -/
theorem isDecimalDigit_toNat (c : Char) (h : isDecimalDigit c) : 48 ≤ c.toNat ∧ c.toNat ≤ 57 := by
  obtain ⟨h1, h2⟩ := h
  have a : '0'.toNat ≤ c.toNat := h1
  have b : c.toNat ≤ '9'.toNat := h2
  have e1 : '0'.toNat = 48 := by decide
  have e2 : '9'.toNat = 57 := by decide
  omega

/-- The loop of `ParseUint` fails on a string that has a character other than
a digit or whose value does not fit in 64 bits. -/
theorem parseUintLoop_error (ds : List Char) (n : Nat) (hn : n < 18446744073709551616)
    (h : ¬ ((∀ c ∈ ds, isDecimalDigit c) ∧
      ds.foldl (fun n c => n * 10 + (c.toNat - '0'.toNat)) n < 18446744073709551616)) :
    ∃ e, parseUintLoop ds n = .error e := by
  induction ds generalizing n with
  | nil => exact absurd ⟨by simp, by simpa using hn⟩ h
  | cons c cs ih =>
    simp only [parseUintLoop]
    by_cases hc : '0' ≤ c ∧ c ≤ '9'
    · rw [if_pos hc]
      by_cases h1 : n ≥ 1844674407370955162
      · rw [if_pos h1]; exact ⟨_, rfl⟩
      · rw [if_neg h1]
        by_cases h3 : (n * 10 + (c.toNat - '0'.toNat)) % 18446744073709551616 < n * 10 ∨
            (n * 10 + (c.toNat - '0'.toNat)) % 18446744073709551616 > 18446744073709551615
        · rw [if_pos h3]; exact ⟨_, rfl⟩
        · rw [if_neg h3]
          have hd := isDecimalDigit_toNat c hc
          have e0 : '0'.toNat = 48 := by decide
          have hlt : n * 10 + (c.toNat - '0'.toNat) < 18446744073709551616 := by
            by_contra hge
            have : (n * 10 + (c.toNat - '0'.toNat)) % 18446744073709551616 =
                n * 10 + (c.toNat - '0'.toNat) - 18446744073709551616 := by omega
            omega
          rw [Nat.mod_eq_of_lt hlt]
          apply ih _ hlt
          intro hcs
          apply h
          refine ⟨?_, by simpa using hcs.2⟩
          intro x hx
          rcases List.mem_cons.1 hx with rfl | hx
          · exact hc
          · exact hcs.1 x hx
    · rw [if_neg hc]; exact ⟨_, rfl⟩

/-- The function `ParseInt` returns a value exactly on the valid integers. -/
theorem ParseInt_ok_iff (s : List Char) : (∃ n, ParseInt s = .ok n) ↔ validInt64 s = true := by
  cases s with
  | nil => simp [ParseInt, validInt64]
  | cons c cs =>
    simp only [ParseInt, validInt64, ParseUint]
    generalize hds : (if c = '+' ∨ c = '-' then cs else c :: cs) = ds
    by_cases hne : ds = []
    · simp [hne]
    · rw [if_neg hne]
      by_cases hok : (∀ c ∈ ds, isDecimalDigit c) ∧
          ds.foldl (fun n c => n * 10 + (c.toNat - '0'.toNat)) 0 < 18446744073709551616
      · rw [parseUintLoop_digits ds 0 hok.1 hok.2]
        have hall : ds.all (fun d => decide (isDecimalDigit d)) = true := by
          rw [List.all_eq_true]
          intro x hx
          simpa using hok.1 x hx
        have hemp : ds.isEmpty = false := by
          cases ds with
          | nil => exact absurd rfl hne
          | cons a t => rfl
        have hval : ds.foldl (fun n c => n * 10 + (c.toNat - '0'.toNat)) 0 = decimalValue ds := rfl
        rw [hval] at hok ⊢
        simp only [hall, hemp, Bool.not_false, Bool.true_and]
        by_cases hneg : c = '-'
        · simp only [hneg, decide_True, Bool.not_true, Bool.false_and, Bool.false_eq_true,
            if_false, Bool.true_and, decide_eq_true_eq, if_true]
          by_cases hr : decimalValue ds > 9223372036854775808
          · rw [if_pos hr]
            have : ¬ decimalValue ds ≤ 9223372036854775808 := by omega
            simp [this]
          · rw [if_neg hr]
            have : decimalValue ds ≤ 9223372036854775808 := by omega
            simp [this]
        · simp only [hneg, decide_False, Bool.not_false, Bool.true_and, Bool.false_and,
            Bool.false_eq_true, if_false, decide_eq_true_eq]
          by_cases hr : decimalValue ds ≥ 9223372036854775808
          · rw [if_pos hr]
            have : ¬ decimalValue ds < 9223372036854775808 := by omega
            simp [this]
          · rw [if_neg hr]
            have : decimalValue ds < 9223372036854775808 := by omega
            simp [this]
      · obtain ⟨e, he⟩ := parseUintLoop_error ds 0 (by omega) hok
        rw [he]
        have hval : ds.foldl (fun n c => n * 10 + (c.toNat - '0'.toNat)) 0 = decimalValue ds := rfl
        rw [hval] at hok
        constructor
        · rintro ⟨n, hn⟩
          cases hn
        · intro hv
          exfalso
          apply hok
          simp only [Bool.and_eq_true, List.all_eq_true, decide_eq_true_eq] at hv
          refine ⟨hv.1.2, ?_⟩
          have := hv.2
          split_ifs at this <;> simp only [decide_eq_true_eq] at this <;> omega

/-- The seconds since the Unix epoch survive the conversion to the count of
seconds since year 1 and back. -/
theorem wrap64_roundTrip (x : Int) :
    wrap64 (wrap64 (x + 62135596800) - 62135596800) = wrap64 x := by
  simp only [wrap64]
  omega

/-- The instant that `Unix` returns for a non-negative count of nanoseconds,
as long as the seconds stay in the range of an `int64`. -/
theorem Unix_nanos (loc : Location) (sec nsec : Int) (h0 : 0 ≤ nsec)
    (hlo : -9223372036854775808 ≤ sec) (hhi : sec + nsec / 1000000000 < 9223372036854775808) :
    (Unix loc sec nsec).loc = loc ∧
    (Unix loc sec nsec).unixSec * 1000000000 + ((Unix loc sec nsec).nsec.val : Int) =
      sec * 1000000000 + nsec := by
  have e : Int.tdiv nsec 1000000000 = nsec / 1000000000 := Int.tdiv_eq_ediv h0 (by omega)
  simp only [Unix, e]
  by_cases h : nsec < 0 ∨ nsec ≥ 1000000000
  · rw [if_pos h]
    have h2 : ¬ nsec - nsec / 1000000000 * 1000000000 < 0 := by omega
    simp only [if_neg h2, Time.unixSec, true_and]
    rw [wrap64_roundTrip, wrap64_id (wrap64 (sec + nsec / 1000000000))
      (by simp only [wrap64]; omega) (by simp only [wrap64]; omega),
      wrap64_id _ (by omega) hhi]
    simp only [nsecOfInt]
    omega
  · rw [if_neg h]
    simp only [Time.unixSec, true_and]
    rw [wrap64_roundTrip, wrap64_id sec hlo (by omega)]
    simp only [nsecOfInt]
    omega

/-- C8, amended: for a string `<s>.<f>` of two non-empty runs of decimal digits
(`s` below 2^63, `f * 1000` below 2^63 and no overflow of the seconds)
`parseSlackTs` returns the instant `s` seconds after the Unix epoch plus `f`
microseconds, that is `f * 1000` nanoseconds; for the string `<s>` alone it
returns `s` seconds and zero nanoseconds. -/
theorem parseSlackTs_value (loc : Location) (ds df : List Char) (hds : ds ≠ []) (hdf : df ≠ [])
    (h1 : ∀ c ∈ ds, isDecimalDigit c) (h2 : ∀ c ∈ df, isDecimalDigit c)
    (hs : decimalValue ds < 9223372036854775808)
    (hf : decimalValue df * 1000 < 9223372036854775808)
    (hsum : decimalValue ds + decimalValue df * 1000 / 1000000000 < 9223372036854775808) :
    (∃ t, parseSlackTs loc (String.mk (ds ++ '.' :: df)) = .ok t ∧ t.loc = loc ∧
      t.unixSec * 1000000000 + (t.nsec.val : Int) =
        (decimalValue ds : Int) * 1000000000 + (decimalValue df : Int) * 1000) ∧
    (∃ t, parseSlackTs loc (String.mk ds) = .ok t ∧ t.loc = loc ∧
      t.unixSec = (decimalValue ds : Int) ∧ t.nsec = 0) := by
  have hnd1 : '.' ∉ ds := fun h => (isDecimalDigit_not_sign _ (h1 _ h)).2.2 rfl
  have hnd2 : '.' ∉ df := fun h => (isDecimalDigit_not_sign _ (h2 _ h)).2.2 rfl
  have ht1 : ∀ l : List Char, '.' ∉ l → l.takeWhile (fun c => c != '.') = l := by
    intro l hl
    rw [List.takeWhile_eq_self_iff]
    intro c hc
    have : c ≠ '.' := fun e => hl (e ▸ hc)
    simpa using this
  have hd1 : ∀ l r : List Char, '.' ∉ l →
      (l ++ '.' :: r).takeWhile (fun c => c != '.') = l ∧
      ((l ++ '.' :: r).dropWhile (fun c => c != '.')).drop 1 = r := by
    intro l r hl
    induction l with
    | nil => simp
    | cons c cs ih =>
      have hc : c ≠ '.' := fun e => hl (by simp [e])
      have := ih (fun h => hl (List.mem_cons_of_mem _ h))
      simp [List.takeWhile_cons, List.dropWhile_cons, hc, this]
  have hsplit1 : stringsSplit '.' ds = [ds] := by
    rw [stringsSplit_eq, if_neg hnd1, ht1 ds hnd1]
  have hsplit2 : stringsSplit '.' (ds ++ '.' :: df) = [ds, df] := by
    rw [stringsSplit_eq, if_pos (by simp), (hd1 ds df hnd1).1, (hd1 ds df hnd1).2,
      stringsSplit_eq, if_neg hnd2, ht1 df hnd2]
  constructor
  · simp only [parseSlackTs, hsplit2]
    simp only [List.length_cons, List.length_nil, List.getD_cons_zero, List.getD_cons_succ]
    rw [ParseInt_digits ds hds h1 hs, ParseInt_digits df hdf h2 (by omega)]
    simp only [Nat.reduceAdd, Nat.not_succ_lt_self, if_false, Nat.reduceLT,
      OfNat.ofNat_ne_one, Nat.succ_ne_self, reduceCtorEq]
    have hw : wrap64 ((decimalValue df : Int) * 1000) = (decimalValue df : Int) * 1000 := by
      simp only [wrap64]; omega
    rw [hw]
    have hU := Unix_nanos loc (decimalValue ds) ((decimalValue df : Int) * 1000) (by omega)
      (by omega) (by omega)
    exact ⟨_, rfl, hU.1, hU.2⟩
  · simp only [parseSlackTs, hsplit1]
    simp only [List.length_cons, List.length_nil, List.getD_cons_zero]
    rw [ParseInt_digits ds hds h1 hs]
    have hU := Unix_nanos loc (decimalValue ds) 0 (by omega) (by omega) (by omega)
    have hn : (Unix loc (decimalValue ds) 0).nsec = 0 := by
      simp only [Unix]
      rw [if_neg (by omega)]
      rfl
    refine ⟨Unix loc (decimalValue ds) 0, by simp, hU.1, ?_, hn⟩
    have := hU.2
    rw [hn] at this
    simp only [Fin.val_zero] at this
    omega

set_option maxRecDepth 20000 in
/-- C8, witness: `"1625048244.000500"` parses to 1625048244 seconds and 500
microseconds. -/
theorem parseSlackTs_value_witness :
    ∃ t, parseSlackTs UTC "1625048244.000500" = .ok t ∧ t.loc = UTC ∧
      t.unixSec * 1000000000 + (t.nsec.val : Int) = 1625048244 * 1000000000 + 500 * 1000 :=
  (parseSlackTs_value UTC "1625048244".data "000500".data (by decide) (by decide) (by decide)
    (by decide) (by decide) (by decide) (by decide)).1

set_option maxRecDepth 20000 in
/-- C8, counterexample: the fraction `000500` of `"1625048244.000500"` gives
500,000 nanoseconds (500 microseconds), not the 500,000,000 nanoseconds of 500
milliseconds. -/
theorem parseSlackTs_fraction_not_milliseconds :
    parseSlackTs UTC "1625048244.000500" = .ok (Unix UTC 1625048244 500000) ∧
    (Unix UTC 1625048244 500000).unixSec = 1625048244 ∧
    (Unix UTC 1625048244 500000).nsec.val = 500000 ∧
    parseSlackTs UTC "1625048244.000500" ≠ .ok (Unix UTC 1625048244 (500 * 1000000)) := by
  decide

theorem stringsSplit_parts (sep : Char) (s : List Char) :
    ¬ (stringsSplit sep s).length < 1 ∧
    (stringsSplit sep s).getD 0 [] = s.takeWhile (fun c => c != sep) ∧
    (sep ∉ s → (stringsSplit sep s).length = 1) ∧
    (sep ∈ s → ¬ (stringsSplit sep s).length = 1 ∧
      (stringsSplit sep s).getD 1 [] =
        ((s.dropWhile (fun c => c != sep)).drop 1).takeWhile (fun c => c != sep)) := by
  have hpos := stringsSplit_length_pos sep s
  have hpos2 := stringsSplit_length_pos sep ((s.dropWhile (fun c => c != sep)).drop 1)
  refine ⟨by omega, ?_, ?_, ?_⟩
  · rw [stringsSplit_eq]; rfl
  · intro h
    rw [stringsSplit_eq, if_neg h]; rfl
  · intro h
    rw [stringsSplit_eq, if_pos h]
    constructor
    · simp only [List.length_cons]; omega
    · rw [stringsSplit_eq]; rfl

/-- The function `parseSlackTs` in terms of the components of its input. -/
theorem parseSlackTs_components (loc : Location) (ts : String) :
    parseSlackTs loc ts =
      match ParseInt (secondsComponent ts) with
      | .error e => .error e
      | .ok secs =>
        if '.' ∈ ts.data then
          match ParseInt (fractionComponent ts) with
          | .error e => .error e
          | .ok microsecs => .ok (Unix loc secs (wrap64 (microsecs * 1000)))
        else .ok (Unix loc secs 0) := by
  obtain ⟨h1, h2, h3, h4⟩ := stringsSplit_parts '.' ts.data
  simp only [parseSlackTs, secondsComponent, fractionComponent]
  rw [if_neg h1, h2]
  by_cases hdot : '.' ∈ ts.data
  · simp only [if_pos hdot, if_neg (h4 hdot).1, (h4 hdot).2]
  · simp only [if_neg hdot, if_pos (h3 hdot)]

/-- C9, amended: `parseSlackTs` returns an error when the string is empty, when
the component before the first `'.'` is not a valid integer, or when there is
a `'.'` and the component between it and the next `'.'` (the rest of the
string when there is no other) is not a valid integer. -/
theorem parseSlackTs_error (loc : Location) (ts : String)
    (h : ts = "" ∨ validInt64 (secondsComponent ts) = false ∨
      ('.' ∈ ts.data ∧ validInt64 (fractionComponent ts) = false)) :
    ∃ e, parseSlackTs loc ts = .error e := by
  have herr : ∀ l : List Char, validInt64 l = false → ∃ e, ParseInt l = .error e := by
    intro l hl
    cases hp : ParseInt l with
    | error e => exact ⟨e, rfl⟩
    | ok n =>
      have := (ParseInt_ok_iff l).1 ⟨n, hp⟩
      rw [hl] at this
      cases this
  rw [parseSlackTs_components]
  rcases h with h | h | ⟨hdot, h⟩
  · subst h
    exact ⟨.errSyntax, rfl⟩
  · obtain ⟨e, he⟩ := herr _ h
    rw [he]
    exact ⟨e, rfl⟩
  · cases hs : ParseInt (secondsComponent ts) with
    | error e1 => exact ⟨e1, rfl⟩
    | ok secs =>
      obtain ⟨e, he⟩ := herr _ h
      simp only
      rw [if_pos hdot, he]
      exact ⟨e, rfl⟩

set_option maxRecDepth 20000 in
/-- C9, witness: the empty string, `"abc.123"` and `"123.abc"` are rejected. -/
theorem parseSlackTs_error_witness :
    (∃ e, parseSlackTs UTC "" = .error e) ∧ (∃ e, parseSlackTs UTC "abc.123" = .error e) ∧
    (∃ e, parseSlackTs UTC "123.abc" = .error e) :=
  ⟨parseSlackTs_error UTC "" (Or.inl rfl),
   parseSlackTs_error UTC "abc.123" (Or.inr (Or.inl (by decide))),
   parseSlackTs_error UTC "123.abc" (Or.inr (Or.inr ⟨by decide, by decide⟩))⟩

set_option maxRecDepth 20000 in
/-- C9, counterexample: in `"1.2.x"` the part after the first `'.'` is `2.x`,
not a valid integer, and `parseSlackTs` returns 1 second and 2 microseconds:
what follows a second `'.'` is not read. -/
theorem parseSlackTs_accepts_text_after_second_dot :
    fractionalPart "1.2.x" = "2.x".data ∧
    validInt64 (fractionalPart "1.2.x") = false ∧
    parseSlackTs UTC "1.2.x" = .ok (Unix UTC 1 2000) := by
  decide

/-! ## Further facts -/

set_option maxRecDepth 20000 in
/-- The day of the records depends on the local zone of the process: with the
timestamp of the scenario read in the zone UTC-5 (a Wednesday there) the
records are dated Tuesday 2021-06-29. -/
theorem scenario_records_west_of_utc :
    (Unix (FixedZone (-18000)) 1625097600 0).Weekday = Wednesday ∧
    getPrevWorkingDay (Unix (FixedZone (-18000)) 1625097600 0) = Unix UTC 1624924800 0 ∧
    (Unix UTC 1624924800 0).Date = (2021, 6, 29) := by
  decide

set_option maxRecDepth 20000 in
/-- At the first instant of the calendar of the `time` package, a Monday, the
count of days wraps: `getPrevWorkingDay` returns a date in the last year of
the calendar. -/
theorem getPrevWorkingDay_at_first_instant :
    (Time.mk (-9223371966579724800) 0 UTC).Date = (-292277022399, 1, 1) ∧
    (Time.mk (-9223371966579724800) 0 UTC).Weekday = Monday ∧
    (getPrevWorkingDay (Time.mk (-9223371966579724800) 0 UTC)).Date = (292277026854, 11, 6) := by
  decide

end Gkbts
